import Mathlib

/-!
Verification of the Parabolic SAR backtest engine (src/backtest_app.py).

The pandas data frame columns are embedded as Lean lists over `ℚ` (exact
rational arithmetic stands in for IEEE floats; `NaN` cells are embedded as
`Option` values where the code can actually produce them).  Each definition
mirrors one vectorized pandas expression of the source.  The Parabolic SAR
indicator itself comes from the third-party `ta` package and is not part of
the repository's sources, so the simulator is parameterized by the `sar`
column; a separate, spec-modelled indicator is provided for the claims that
need it.

Timestamps are embedded as hour counts (`ℕ`); calendar days and months are
the derived buckets `dt / 24` and `dt / 720` (fixed 24-hour days, 30-day
months).  Only the monotone bucketing maps matter to the resampling logic,
never the irregular lengths of real calendar months.
-/

/- Batteries marks the rational field operations irreducible, which blocks
elaborator-side evaluation of concrete inputs; restore the default so that
`decide` can evaluate the engine on concrete inputs.  (The kernel ignores
reducibility attributes, so proofs are unaffected.) -/
attribute [local semireducible] Rat.add Rat.sub Rat.mul Rat.inv

set_option maxRecDepth 4000

namespace SarBacktest

/-- One validated input bar: timestamp (hours), and the OHLC fields the
backtest reads (`open` and `volume` are never read by the engine). -/
structure Bar where
  dt : ℕ
  high : ℚ
  low : ℚ
  close : ℚ
  deriving DecidableEq, Repr

instance : Inhabited Bar := ⟨⟨0, 0, 0, 0⟩⟩

/-- pandas `Series.shift(1).fillna(v)`: drop the last entry, prepend `v`.
The shift of an empty series is empty. -/
def shiftFill (v : α) : List α → List α
  | [] => []
  | x :: xs => v :: (x :: xs).dropLast

/-- pandas `Series.shift(1)` without `fillna`: the first cell becomes
`none` (NaN). -/
def optShift : List α → List (Option α)
  | [] => []
  | x :: xs => none :: ((x :: xs).dropLast.map some)

/-- pandas `Series.cumsum()` with running accumulator `a`. -/
def cumsumFrom (a : ℚ) : List ℚ → List ℚ
  | [] => []
  | x :: xs => (a + x) :: cumsumFrom (a + x) xs

/-- pandas `Series.cumsum()` over rationals. -/
def cumsum (xs : List ℚ) : List ℚ := cumsumFrom 0 xs

/-- `cumsum` over naturals (for the boolean `trade_start` column). -/
def cumsumNatFrom (a : ℕ) : List ℕ → List ℕ
  | [] => []
  | x :: xs => (a + x) :: cumsumNatFrom (a + x) xs

/-- `df['signal'] = np.where(close > sar, 1, np.where(close < sar, -1, 0))`. -/
def signal (bars : List Bar) (sars : List ℚ) : List ℤ :=
  List.zipWith
    (fun b s => if b.close > s then (1 : ℤ) else if b.close < s then -1 else 0)
    bars sars

/-- `df['position'] = df['signal'].shift(1).fillna(0)`. -/
def position (bars : List Bar) (sars : List ℚ) : List ℤ :=
  shiftFill 0 (signal bars sars)

/-- `df['trade_return']`: long bars earn `close/close.shift(1) - 1`, short
bars earn `close.shift(1)/close - 1`, flat bars earn 0.  The `none` branch
(NaN from `close.shift(1)` on the first row) is only selected when the first
position is non-flat, which never happens since `position[0] = 0`. -/
def trade_return (bars : List Bar) (sars : List ℚ) : List ℚ :=
  List.zipWith
    (fun p cc =>
      if p = (1 : ℤ) then
        match cc.2 with
        | some q => cc.1 / q - 1
        | none => 0
      else if p = -1 then
        match cc.2 with
        | some q => q / cc.1 - 1
        | none => 0
      else 0)
    (position bars sars)
    ((bars.map Bar.close).zip (optShift (bars.map Bar.close)))

/-- `df['trade_pnl'] = df['trade_return'] * initial_capital`. -/
def trade_pnl (bars : List Bar) (sars : List ℚ) (cap : ℚ) : List ℚ :=
  (trade_return bars sars).map (fun r => r * cap)

/-- `df['trade_cost'] = np.where((position != position.shift(1)) & (position != 0),
transaction_cost, 0)`.  On the first row `position.shift(1)` is NaN and the
pandas comparison `x != NaN` is true, embedded by the `none => true` branch. -/
def trade_cost (bars : List Bar) (sars : List ℚ) (fee : ℚ) : List ℚ :=
  List.zipWith
    (fun p pp =>
      if (pp.elim true (fun q => decide (p ≠ q))) && decide (p ≠ (0 : ℤ)) then fee
      else 0)
    (position bars sars) (optShift (position bars sars))

/-- `df['net_pnl'] = df['trade_pnl'] - df['trade_cost']`. -/
def net_pnl (bars : List Bar) (sars : List ℚ) (cap fee : ℚ) : List ℚ :=
  List.zipWith (fun a b => a - b) (trade_pnl bars sars cap) (trade_cost bars sars fee)

/-- `df['equity'] = initial_capital + df['net_pnl'].cumsum()`. -/
def equity (bars : List Bar) (sars : List ℚ) (cap fee : ℚ) : List ℚ :=
  (cumsum (net_pnl bars sars cap fee)).map (fun s => cap + s)

/-! ### Trade log (source lines 95-106) -/

/-- The per-bar data the trade-log builder reads: timestamp, close,
position and net P&L of one row of the data frame. -/
structure BRow where
  dt : ℕ
  close : ℚ
  pos : ℤ
  pnl : ℚ
  deriving DecidableEq, Repr

instance : Inhabited BRow := ⟨⟨0, 0, 0, 0⟩⟩

/-- The rows of the data frame, restricted to the columns the trade-log
builder uses. -/
def brows (bars : List Bar) (sars : List ℚ) (cap fee : ℚ) : List BRow :=
  List.zipWith (fun bp q => ⟨bp.1.dt, bp.1.close, bp.2, q⟩)
    (bars.zip (position bars sars)) (net_pnl bars sars cap fee)

/-- `df['prev_position'] = df['position'].shift(1).fillna(0)`. -/
def prev_position (bars : List Bar) (sars : List ℚ) : List ℤ :=
  shiftFill 0 (position bars sars)

/-- `df['trade_start'] = (position != prev_position) & (position != 0)`. -/
def trade_start (bars : List Bar) (sars : List ℚ) : List Bool :=
  List.zipWith (fun p pp => decide (p ≠ pp) && decide (p ≠ (0 : ℤ)))
    (position bars sars) (prev_position bars sars)

/-- `df['trade_id'] = df['trade_start'].cumsum()`. -/
def trade_id (bars : List Bar) (sars : List ℚ) : List ℕ :=
  cumsumNatFrom 0 ((trade_start bars sars).map (fun b => if b then 1 else 0))

/-- Rows paired with their `trade_id`. -/
def tagged (bars : List Bar) (sars : List ℚ) (cap fee : ℚ) : List (BRow × ℕ) :=
  (brows bars sars cap fee).zip (trade_id bars sars)

/-- One row of the trade log. -/
structure Trade where
  entry_time : ℕ
  entry_price : ℚ
  exit_time : ℕ
  exit_price : ℚ
  direction : ℤ
  pnl : ℚ
  deriving DecidableEq, Repr

/-- The `groupby('trade_id').agg(...)` row for one group: `first`/`last`
take the first and last row of the group in frame order, `sum` adds the
group's net P&L. -/
def mkTrade (g : List BRow) : Trade :=
  { entry_time := (g.headD default).dt
    entry_price := (g.headD default).close
    exit_time := (g.getLastD default).dt
    exit_price := (g.getLastD default).close
    direction := (g.headD default).pos
    pnl := (g.map BRow.pnl).sum }

/-- `trade_log = df[df['trade_id'] > 0].groupby('trade_id').agg(...)`:
keep the rows with a positive id, then emit one aggregated row per distinct
id in ascending id order (the ids are already nondecreasing along the
frame, so the sorted distinct keys are the deduplicated id column). -/
def trade_log (bars : List Bar) (sars : List ℚ) (cap fee : ℚ) : List Trade :=
  let pt := (tagged bars sars cap fee).filter (fun rc => decide (0 < rc.2))
  ((pt.map (fun rc => rc.2)).dedup).map
    (fun k => mkTrade ((pt.filter (fun rc => decide (rc.2 = k))).map (fun rc => rc.1)))

/-! ### Calendar resampling (source lines 69-73 and 114-115) -/

/-- Calendar day of an hour-count timestamp. -/
def dayOf (t : ℕ) : ℕ := t / 24

/-- Calendar month of an hour-count timestamp (30-day months). -/
def monthOf (t : ℕ) : ℕ := t / 720

/-- The rows a resample reads: timestamp, `net_pnl`, `equity`. -/
def sim_rows (bars : List Bar) (sars : List ℚ) (cap fee : ℚ) : List (ℕ × ℚ × ℚ) :=
  List.zipWith (fun b pe => (b.dt, pe)) bars
    ((net_pnl bars sars cap fee).zip (equity bars sars cap fee))

/-- Minimum of a list of naturals (0 for the empty list, which resample
never passes). -/
def minNat : List ℕ → ℕ
  | [] => 0
  | x :: xs => xs.foldl min x

/-- Maximum of a list of naturals. -/
def maxNat : List ℕ → ℕ
  | [] => 0
  | x :: xs => xs.foldl max x

/-- `df.resample(freq, on='datetime').agg({'net_pnl': 'sum', 'equity': 'last'})`:
one output row per bucket key from the smallest to the largest key present,
including empty buckets; a sum over an empty bucket is 0 and the `last`
equity of an empty bucket is NaN (`none`). -/
def resampleKeyed (key : ℕ → ℕ) (rows : List (ℕ × ℚ × ℚ)) : List (ℕ × ℚ × Option ℚ) :=
  match rows with
  | [] => []
  | _ =>
    let ks := rows.map (fun r => key r.1)
    (List.range' (minNat ks) (maxNat ks - minNat ks + 1)).map (fun k =>
      let g := rows.filter (fun r => decide (key r.1 = k))
      (k, (g.map (fun r => r.2.1)).sum, (g.getLast?).map (fun r => r.2.2)))

/-- `daily = df.resample('D', on='datetime').agg(...).dropna()`: the
`dropna` removes exactly the empty buckets (their `equity` cell is NaN;
no other cell of this frame is ever NaN). -/
def daily (bars : List Bar) (sars : List ℚ) (cap fee : ℚ) : List (ℕ × ℚ × ℚ) :=
  (resampleKeyed dayOf (sim_rows bars sars cap fee)).filterMap
    (fun ke => match ke.2.2 with
      | some e => some (ke.1, ke.2.1, e)
      | none => none)

/-- Helper for `daily_ret`: divide each bucket's P&L by the previous
bucket's ending equity, seeding the first bucket with `prevEq`. -/
def retsFrom (prevEq : ℚ) : List (ℚ × ℚ) → List ℚ
  | [] => []
  | pe :: tl => (pe.1 / prevEq) :: retsFrom pe.2 tl

/-- `daily['daily_ret'] = daily['net_pnl'] / daily['equity'].shift(1).fillna(initial_capital)`. -/
def daily_ret (bars : List Bar) (sars : List ℚ) (cap fee : ℚ) : List ℚ :=
  retsFrom cap ((daily bars sars cap fee).map (fun r => (r.2.1, r.2.2)))

/-- The daily equity series the drawdown is computed on. -/
def daily_equity (bars : List Bar) (sars : List ℚ) (cap fee : ℚ) : List ℚ :=
  (daily bars sars cap fee).map (fun r => r.2.2)

/-! ### Summary statistics (source lines 72-73) -/

/-- Sample mean. -/
def sampleMean (xs : List ℚ) : ℚ := xs.sum / xs.length

/-- pandas `Series.std()` (sample variance, `ddof=1`): NaN (`none`) on
fewer than two observations. -/
def sampleVar (xs : List ℚ) : Option ℚ :=
  if xs.length < 2 then none
  else some (((xs.map (fun x => (x - sampleMean xs) ^ 2)).sum) / ((xs.length : ℚ) - 1))

/-- `sharpe = (mean/std) * sqrt(252) if std > 0 else nan`.  The guard
`std > 0` is false both when the standard deviation is zero and when it is
NaN (fewer than two observations), so those cases yield NaN (`none`). -/
noncomputable def sharpe (xs : List ℚ) : Option ℝ :=
  match sampleVar xs with
  | none => none
  | some v =>
    if 0 < v then some (((sampleMean xs : ℚ) : ℝ) / Real.sqrt (v : ℝ) * Real.sqrt 252)
    else none

/-- pandas `Series.cummax()` with running maximum `m`. -/
def cummaxAux (m : ℚ) : List ℚ → List ℚ
  | [] => []
  | x :: xs => (max m x) :: cummaxAux (max m x) xs

/-- pandas `Series.cummax()`. -/
def cummax (xs : List ℚ) : List ℚ :=
  match xs with
  | [] => []
  | x :: _ => cummaxAux x xs

/-- `(equity.cummax() - equity) / equity.cummax()`. -/
def drawdowns (eq : List ℚ) : List ℚ :=
  List.zipWith (fun m e => (m - e) / m) (cummax eq) eq

/-- pandas `Series.max()`: NaN (`none`) on an empty series. -/
def listMax : List ℚ → Option ℚ
  | [] => none
  | x :: xs =>
    some (match listMax xs with
      | none => x
      | some m => max x m)

/-- `max_dd = ((daily['equity'].cummax() - daily['equity']) / daily['equity'].cummax()).max()`. -/
def max_dd (eq : List ℚ) : Option ℚ := listMax (drawdowns eq)

/-! ### Monthly returns (source lines 114-115) -/

/-- `monthly = df.resample('M', on='datetime').agg(...)` — no `dropna`:
empty months stay in the table. -/
def monthly (bars : List Bar) (sars : List ℚ) (cap fee : ℚ) : List (ℕ × ℚ × Option ℚ) :=
  resampleKeyed monthOf (sim_rows bars sars cap fee)

/-- The monthly equity column (NaN cells are `none`). -/
def monthly_equity (bars : List Bar) (sars : List ℚ) (cap fee : ℚ) : List (Option ℚ) :=
  (monthly bars sars cap fee).map (fun r => r.2.2)

/-- `Series.pct_change() * 100` on a column that may contain NaNs: each
cell is `cur/prev - 1` scaled by 100, NaN whenever the current or previous
cell is NaN, and the first cell is always NaN. -/
def pct_change100 (es : List (Option ℚ)) : List (Option ℚ) :=
  List.zipWith
    (fun cur prev => prev.bind (fun a => cur.map (fun b => (b / a - 1) * 100)))
    es (shiftFill none es)

/-- `monthly['monthly_return (%)'] = monthly['equity'].pct_change() * 100`. -/
def monthly_ret (bars : List Bar) (sars : List ℚ) (cap fee : ℚ) : List (Option ℚ) :=
  pct_change100 (monthly_equity bars sars cap fee)

/-! ### Trend indicator engine, modelled from the spec

The source delegates the indicator to `ta.trend.PSARIndicator`, whose
implementation is not under `src/`.  The definitions below are *modelled
from the spec* (section 4.2): the recurrence is seeded from the first two
bars and fails on shorter inputs. -/

/-- The indicator's two trend states. -/
inductive PTrend
  | rising
  | falling
  deriving DecidableEq, Repr

/-- The indicator state carried bar to bar: stop level, trend, extreme
point and acceleration. -/
structure PState where
  sar : ℚ
  trend : PTrend
  ep : ℚ
  af : ℚ
  deriving DecidableEq, Repr

/-- Modelled from the spec: one step of the stop-and-reverse recurrence
(spec section 4.2).  `b2` and `b1` are the two prior bars, `b` the current
bar.  The candidate stop is `sar + af * (ep - sar)`, clamped against the
prior two bars' extremes; a breach flips the trend, resets the stop to the
prior extreme point and the acceleration to `accel`; otherwise a new
extreme raises the acceleration by `accel` up to `mAccel`. -/
def psarStep (accel mAccel : ℚ) (b2 b1 : Bar) (st : PState) (b : Bar) : PState :=
  match st.trend with
  | .rising =>
    let cand := st.sar + st.af * (st.ep - st.sar)
    let cand2 := min cand (min b1.low b2.low)
    if b.low < cand2 then ⟨st.ep, .falling, b.low, accel⟩
    else if b.high > st.ep then ⟨cand2, .rising, b.high, min (st.af + accel) mAccel⟩
    else ⟨cand2, .rising, st.ep, st.af⟩
  | .falling =>
    let cand := st.sar + st.af * (st.ep - st.sar)
    let cand2 := max cand (max b1.high b2.high)
    if b.high > cand2 then ⟨st.ep, .rising, b.high, accel⟩
    else if b.low < st.ep then ⟨cand2, .falling, b.low, min (st.af + accel) mAccel⟩
    else ⟨cand2, .falling, st.ep, st.af⟩

/-- Modelled from the spec: run the recurrence over the remaining bars,
emitting one stop level per bar. -/
def psarGo (accel mAccel : ℚ) (b2 b1 : Bar) (st : PState) : List Bar → List ℚ
  | [] => []
  | b :: rest =>
    let st2 := psarStep accel mAccel b2 b1 st b
    st2.sar :: psarGo accel mAccel b1 b st2 rest

/-- Modelled from the spec: the Trend Indicator Engine
(`ta.trend.PSARIndicator`; its implementation is missing from `src/`).
Seeded from the first two bars — initial trend rising iff the second close
exceeds the first, initial stop at the first bar's opposite extreme, the
extreme point at the matching extreme of the seed bars — and fatal
(`InsufficientDataError`, spec section 7) on fewer than two bars.  The two
seed bars report the seed stop level. -/
def psarSpec (accel mAccel : ℚ) (bars : List Bar) : Except String (List ℚ) :=
  match bars with
  | b0 :: b1 :: rest =>
    let st : PState :=
      if b1.close > b0.close then ⟨b0.low, .rising, max b0.high b1.high, accel⟩
      else ⟨b0.high, .falling, min b0.low b1.low, accel⟩
    Except.ok (st.sar :: st.sar :: psarGo accel mAccel b0 b1 st rest)
  | _ => Except.error "InsufficientDataError"

/-- Everything the engine reports (the sharpe value is `sharpe` applied to
the `sharpe_rets` field, kept as data so that the record stays computable). -/
structure Output where
  final_equity : ℚ
  total_return_pct : ℚ
  sharpe_rets : List ℚ
  max_drawdown : Option ℚ
  trades : List Trade
  monthly_table : List (ℕ × ℚ × Option ℚ)
  monthly_returns : List (Option ℚ)
  deriving DecidableEq, Repr

/-- The whole engine: indicator (spec-modelled) followed by the simulator
and the three reporting components.  An indicator failure aborts the run
with no partial output. -/
def runBacktest (accel mAccel cap fee : ℚ) (bars : List Bar) : Except String Output :=
  (psarSpec accel mAccel bars).map (fun sars =>
    { final_equity := (equity bars sars cap fee).getLastD cap
      total_return_pct := ((equity bars sars cap fee).getLastD cap / cap - 1) * 100
      sharpe_rets := daily_ret bars sars cap fee
      max_drawdown := max_dd (daily_equity bars sars cap fee)
      trades := trade_log bars sars cap fee
      monthly_table := monthly bars sars cap fee
      monthly_returns := monthly_ret bars sars cap fee })

/-! ### Run-segmentation view of the trade log

`segsFrom` cuts the flagged row list at the bars where a trade starts:
rows before the first start are dropped, and each segment runs from one
trade start to just before the next.  The refinement theorem for the trade
log proves that the source's `groupby` produces exactly one `Trade` per
such segment. -/

/-- Split a flagged row list at the first trade start: the rows before it,
and the rest. -/
def spanNonStart : List (Bool × BRow) → List BRow × List (Bool × BRow)
  | [] => ([], [])
  | (b, r) :: tl =>
    if b then ([], (b, r) :: tl)
    else ((r :: (spanNonStart tl).1), (spanNonStart tl).2)

theorem spanNonStart_snd_length (xs : List (Bool × BRow)) :
    (spanNonStart xs).2.length ≤ xs.length := by
  induction xs with
  | nil => simp [spanNonStart]
  | cons hd tl ih =>
    obtain ⟨b, r⟩ := hd
    by_cases hb : b
    · simp [spanNonStart, hb]
    · simp only [spanNonStart, hb, Bool.false_eq_true, if_false, List.length_cons]
      exact ih.trans (Nat.le_succ _)

/-- The segments of the flagged row list: one per trade start, each
running up to (not including) the next trade start. -/
def segsFrom : List (Bool × BRow) → List (List BRow)
  | [] => []
  | (b, r) :: tl =>
    if b then (r :: (spanNonStart tl).1) :: segsFrom (spanNonStart tl).2
    else segsFrom tl
termination_by xs => xs.length
decreasing_by
  · simpa using Nat.lt_succ_of_le (spanNonStart_snd_length tl)
  · simp

/-- Each row paired with its `trade_start` flag. -/
def flagged (bars : List Bar) (sars : List ℚ) (cap fee : ℚ) : List (Bool × BRow) :=
  (trade_start bars sars).zip (brows bars sars cap fee)

/-- The trade log described by segments: one `Trade` per maximal non-flat
position run, aggregated over the rows from the run's first bar up to the
bar before the next run starts. -/
def trade_log_runs (bars : List Bar) (sars : List ℚ) (cap fee : ℚ) : List Trade :=
  (segsFrom (flagged bars sars cap fee)).map mkTrade

/-- Proof device: assign `trade_id`s by walking the flagged rows with a
running counter, bumping it at each start. -/
def attach (k : ℕ) : List (Bool × BRow) → List (BRow × ℕ)
  | [] => []
  | (b, r) :: tl => (r, if b then k + 1 else k) :: attach (if b then k + 1 else k) tl

/-- Number of trade starts. -/
def countStarts (xs : List (Bool × BRow)) : ℕ :=
  (xs.filter (fun p => p.1)).length

/-! ### Length and indexing lemmas -/

theorem shiftFill_length (v : α) (xs : List α) : (shiftFill v xs).length = xs.length := by
  cases xs <;> simp [shiftFill]

theorem optShift_length (xs : List α) : (optShift xs).length = xs.length := by
  cases xs <;> simp [optShift]

theorem cumsumFrom_length (a : ℚ) (xs : List ℚ) : (cumsumFrom a xs).length = xs.length := by
  induction xs generalizing a with
  | nil => rfl
  | cons x tl ih => simp [cumsumFrom, ih]

theorem cumsumNatFrom_length (a : ℕ) (xs : List ℕ) :
    (cumsumNatFrom a xs).length = xs.length := by
  induction xs generalizing a with
  | nil => rfl
  | cons x tl ih => simp [cumsumNatFrom, ih]

theorem signal_length (bars : List Bar) (sars : List ℚ) :
    (signal bars sars).length = min bars.length sars.length := by
  simp [signal]

theorem position_length (bars : List Bar) (sars : List ℚ) :
    (position bars sars).length = min bars.length sars.length := by
  simp [position, shiftFill_length, signal_length]

theorem trade_return_length (bars : List Bar) (sars : List ℚ) :
    (trade_return bars sars).length = min bars.length sars.length := by
  simp [trade_return, position_length, optShift_length]

theorem trade_pnl_length (bars : List Bar) (sars : List ℚ) (cap : ℚ) :
    (trade_pnl bars sars cap).length = min bars.length sars.length := by
  simp [trade_pnl, trade_return_length]

theorem trade_cost_length (bars : List Bar) (sars : List ℚ) (fee : ℚ) :
    (trade_cost bars sars fee).length = min bars.length sars.length := by
  simp [trade_cost, position_length, optShift_length]

theorem net_pnl_length (bars : List Bar) (sars : List ℚ) (cap fee : ℚ) :
    (net_pnl bars sars cap fee).length = min bars.length sars.length := by
  simp [net_pnl, trade_pnl_length, trade_cost_length]

theorem equity_length (bars : List Bar) (sars : List ℚ) (cap fee : ℚ) :
    (equity bars sars cap fee).length = min bars.length sars.length := by
  simp [equity, cumsum, cumsumFrom_length, net_pnl_length]

theorem brows_length (bars : List Bar) (sars : List ℚ) (cap fee : ℚ) :
    (brows bars sars cap fee).length = min bars.length sars.length := by
  simp [brows, position_length, net_pnl_length]

theorem trade_start_length (bars : List Bar) (sars : List ℚ) :
    (trade_start bars sars).length = min bars.length sars.length := by
  simp [trade_start, position_length, prev_position, shiftFill_length]

theorem trade_id_length (bars : List Bar) (sars : List ℚ) :
    (trade_id bars sars).length = min bars.length sars.length := by
  simp [trade_id, cumsumNatFrom_length, trade_start_length]

theorem shiftFill_getElem (v : α) (xs : List α) (i : ℕ) (hi : i < (shiftFill v xs).length) :
    (shiftFill v xs).get ⟨i, hi⟩ = if i = 0 then v else xs.get ⟨i - 1, by
      rw [shiftFill_length] at hi; omega⟩ := by
  match xs, i with
  | x :: tl, 0 => rfl
  | x :: tl, i + 1 =>
    simp only [shiftFill] at hi ⊢
    simp only [List.get_eq_getElem, List.getElem_cons_succ, List.getElem_dropLast]
    simp

theorem optShift_getElem (xs : List α) (i : ℕ) (hi : i < (optShift xs).length) :
    (optShift xs).get ⟨i, hi⟩ = if h : i = 0 then none else some (xs.get ⟨i - 1, by
      rw [optShift_length] at hi; omega⟩) := by
  match xs, i with
  | x :: tl, 0 => rfl
  | x :: tl, i + 1 =>
    simp only [optShift] at hi ⊢
    simp only [List.get_eq_getElem, List.getElem_cons_succ, List.getElem_map,
      List.getElem_dropLast]
    simp

theorem zipWith_getD (f : α → β → γ) (l1 : List α) (l2 : List β) (i : ℕ)
    (hi : i < (List.zipWith f l1 l2).length) (d1 : α) (d2 : β) (d3 : γ) :
    (List.zipWith f l1 l2).getD i d3 = f (l1.getD i d1) (l2.getD i d2) := by
  have h1 : i < l1.length := by simp only [List.length_zipWith] at hi; omega
  have h2 : i < l2.length := by simp only [List.length_zipWith] at hi; omega
  rw [List.getD_eq_getElem _ _ hi, List.getD_eq_getElem _ _ h1,
    List.getD_eq_getElem _ _ h2, List.getElem_zipWith]

theorem ite_and_comm (a b : Prop) [Decidable a] [Decidable b]
    [Decidable (a ∧ b)] [Decidable (b ∧ a)] (x y : ℚ) :
    (if a ∧ b then x else y) = (if b ∧ a then x else y) := by
  by_cases ha : a <;> by_cases hb : b <;> simp [ha, hb]

theorem shiftFill_getD (v d : α) (xs : List α) (i : ℕ) (hi : i < (shiftFill v xs).length) :
    (shiftFill v xs).getD i d = if i = 0 then v else xs.getD (i - 1) d := by
  have h := shiftFill_getElem v xs i hi
  simp only [List.get_eq_getElem] at h
  rw [List.getD_eq_getElem _ _ hi, h]
  rcases Nat.eq_zero_or_pos i with h0 | h0
  · simp [h0]
  · have hne : ¬ i = 0 := by omega
    have hbound : i - 1 < xs.length := by rw [shiftFill_length] at hi; omega
    simp only [hne, if_false]
    rw [List.getD_eq_getElem _ _ hbound]

theorem optShift_getD (d : α) (xs : List α) (i : ℕ) (hi : i < (optShift xs).length) :
    (optShift xs).getD i none = if i = 0 then none else some (xs.getD (i - 1) d) := by
  have h := optShift_getElem xs i hi
  simp only [List.get_eq_getElem] at h
  rw [List.getD_eq_getElem _ _ hi, h]
  rcases Nat.eq_zero_or_pos i with h0 | h0
  · simp [h0]
  · have hne : ¬ i = 0 := by omega
    have hbound : i - 1 < xs.length := by rw [optShift_length] at hi; omega
    simp only [hne, dif_neg, if_false]
    rw [List.getD_eq_getElem _ _ hbound]
    simp [hne]

theorem position_getD_zero (bars : List Bar) (sars : List ℚ) (d : ℤ)
    (h : 0 < (position bars sars).length) : (position bars sars).getD 0 d = 0 := by
  simp only [position] at h ⊢
  rw [shiftFill_getD _ _ _ _ h]
  rfl

theorem signal_getD (bars : List Bar) (sars : List ℚ) (i : ℕ)
    (hi : i < (signal bars sars).length) :
    (signal bars sars).getD i 9 =
      (if (bars.getD i default).close > sars.getD i 0 then 1
       else if (bars.getD i default).close < sars.getD i 0 then -1 else 0) := by
  simp only [signal] at hi ⊢
  rw [zipWith_getD _ _ _ _ hi default 0]

theorem position_getD_succ (bars : List Bar) (sars : List ℚ) (i : ℕ)
    (hi : i + 1 < (position bars sars).length) :
    (position bars sars).getD (i + 1) 9 = (signal bars sars).getD i 9 := by
  simp only [position] at hi ⊢
  rw [shiftFill_getD _ _ _ _ hi]
  simp

theorem trade_cost_getD (bars : List Bar) (sars : List ℚ) (fee : ℚ) (i : ℕ)
    (hi : i < (trade_cost bars sars fee).length) :
    (trade_cost bars sars fee).getD i 0 =
      if ((if i = 0 then (none : Option ℤ)
            else some ((position bars sars).getD (i - 1) 9)).elim true
            (fun q => decide ((position bars sars).getD i 9 ≠ q))
          && decide ((position bars sars).getD i 9 ≠ (0 : ℤ)))
      then fee else 0 := by
  have hopt : i < (optShift (position bars sars)).length := by
    rw [optShift_length]
    simpa [trade_cost_length, position_length] using hi
  simp only [trade_cost] at hi ⊢
  rw [zipWith_getD _ _ _ _ hi 9 none, optShift_getD 9 _ _ hopt]

theorem trade_return_getD_zero (bars : List Bar) (sars : List ℚ)
    (h : 0 < (trade_return bars sars).length) : (trade_return bars sars).getD 0 0 = 0 := by
  have hp : 0 < (position bars sars).length := by
    rw [position_length]
    simpa [trade_return_length] using h
  simp only [trade_return] at h ⊢
  rw [zipWith_getD _ _ _ _ h 9 (0, none), position_getD_zero _ _ _ hp]
  simp

theorem net_pnl_getD_zero (bars : List Bar) (sars : List ℚ) (cap fee : ℚ)
    (h : 0 < (net_pnl bars sars cap fee).length) :
    (net_pnl bars sars cap fee).getD 0 0 = 0 := by
  have hn := net_pnl_length bars sars cap fee
  have hr : 0 < (trade_return bars sars).length := by rw [trade_return_length]; omega
  have hpl : 0 < (trade_pnl bars sars cap).length := by rw [trade_pnl_length]; omega
  have hc : 0 < (trade_cost bars sars fee).length := by rw [trade_cost_length]; omega
  have hp : 0 < (position bars sars).length := by rw [position_length]; omega
  simp only [net_pnl] at h ⊢
  rw [zipWith_getD _ _ _ _ h 0 0]
  have htp : (trade_pnl bars sars cap).getD 0 0 = 0 := by
    rw [List.getD_eq_getElem _ _ hpl]
    simp only [trade_pnl, List.getElem_map]
    rw [← List.getD_eq_getElem _ _ hr, trade_return_getD_zero bars sars hr]
    simp
  have htc : (trade_cost bars sars fee).getD 0 0 = 0 := by
    rw [trade_cost_getD _ _ _ _ hc, position_getD_zero _ _ _ hp]
    simp
  rw [htp, htc]
  simp

theorem cumsumFrom_getElem?_zero (a : ℚ) (xs : List ℚ) :
    (cumsumFrom a xs)[0]? = (xs[0]?).map (fun x => a + x) := by
  cases xs <;> simp [cumsumFrom]

theorem equity_getD_zero (bars : List Bar) (sars : List ℚ) (cap fee d : ℚ)
    (h : 0 < (equity bars sars cap fee).length) :
    (equity bars sars cap fee).getD 0 d = cap := by
  have hnet : 0 < (net_pnl bars sars cap fee).length := by
    rw [net_pnl_length]
    simpa [equity_length] using h
  have hzero := net_pnl_getD_zero bars sars cap fee hnet
  have hnet0 : (net_pnl bars sars cap fee)[0]? = some 0 := by
    rw [List.getD_eq_getElem?_getD] at hzero
    cases hq : (net_pnl bars sars cap fee)[0]? with
    | none =>
      rw [List.getElem?_eq_none_iff] at hq
      omega
    | some x =>
      rw [hq] at hzero
      simp only [Option.getD_some] at hzero
      rw [hzero]
  simp only [equity, cumsum, List.getD_eq_getElem?_getD, List.getElem?_map,
    cumsumFrom_getElem?_zero, hnet0]
  norm_num

/-! ### Claims C5, C6, C7 -/

/-- Claim C5: the transaction cost charged at bar `i` equals
`transaction_cost` exactly when `position[i]` is non-flat and differs from
`position[i-1]`, and equals 0 on every other bar, including bar 0 (where
the position is always flat). -/
theorem C5_trade_cost_iff (bars : List Bar) (sars : List ℚ) (fee : ℚ) (i : ℕ)
    (hi : i < (trade_cost bars sars fee).length) :
    (trade_cost bars sars fee).getD 0 0 = 0 ∧
    (0 < i → (trade_cost bars sars fee).getD i 0 =
      (if (position bars sars).getD i 9 ≠ 0 ∧
          (position bars sars).getD i 9 ≠ (position bars sars).getD (i - 1) 9
       then fee else 0)) := by
  have h0 : 0 < (trade_cost bars sars fee).length := lt_of_le_of_lt (Nat.zero_le i) hi
  have hp0 : 0 < (position bars sars).length := by
    rw [position_length]
    simpa [trade_cost_length] using h0
  constructor
  · rw [trade_cost_getD _ _ _ _ h0, position_getD_zero _ _ _ hp0]
    simp
  · intro hpos
    rw [trade_cost_getD _ _ _ _ hi]
    have hne : ¬ i = 0 := by omega
    simp only [hne, if_false, Option.elim_some, Bool.and_eq_true, decide_eq_true_eq]
    exact ite_and_comm _ _ fee 0

/-- Witness for C5 at a concrete two-bar input (`i = 1`, a long entry bar
paying the fee). -/
theorem C5_trade_cost_iff_witness :
    (1 < (trade_cost [⟨0, 0, 0, 100⟩, ⟨24, 0, 0, 100⟩] [50, 50] 100).length) ∧
    ((trade_cost [⟨0, 0, 0, 100⟩, ⟨24, 0, 0, 100⟩] [50, 50] 100).getD 0 0 = 0 ∧
     (0 < 1 → (trade_cost [⟨0, 0, 0, 100⟩, ⟨24, 0, 0, 100⟩] [50, 50] 100).getD 1 0 =
       (if (position [⟨0, 0, 0, 100⟩, ⟨24, 0, 0, 100⟩] [50, 50]).getD 1 9 ≠ 0 ∧
           (position [⟨0, 0, 0, 100⟩, ⟨24, 0, 0, 100⟩] [50, 50]).getD 1 9 ≠
             (position [⟨0, 0, 0, 100⟩, ⟨24, 0, 0, 100⟩] [50, 50]).getD 0 9
        then 100 else 0))) :=
  ⟨by decide, C5_trade_cost_iff [⟨0, 0, 0, 100⟩, ⟨24, 0, 0, 100⟩] [50, 50] 100 1 (by decide)⟩

/-- Claim C6: `position[0] = 0`, `position[i+1] = signal[i]`, and the
signal at a bar is the sign of `close − sar` (+1 above, −1 below, 0 at
equality). -/
theorem C6_position_is_lagged_signal (bars : List Bar) (sars : List ℚ) (i : ℕ)
    (hi : i + 1 < (position bars sars).length) :
    (position bars sars).getD (i + 1) 9 = (signal bars sars).getD i 9 ∧
    (position bars sars).getD 0 9 = 0 ∧
    (signal bars sars).getD i 9 =
      (if (bars.getD i default).close > sars.getD i 0 then 1
       else if (bars.getD i default).close < sars.getD i 0 then -1 else 0) := by
  have hs : i < (signal bars sars).length := by
    rw [signal_length]
    simpa [position_length] using Nat.lt_of_succ_lt hi
  exact ⟨position_getD_succ bars sars i hi,
    position_getD_zero bars sars 9 (lt_of_le_of_lt (Nat.zero_le _) hi),
    signal_getD bars sars i hs⟩

/-- Witness for C6 at a concrete two-bar input (`i = 0`). -/
theorem C6_position_is_lagged_signal_witness :
    (0 + 1 < (position [⟨0, 0, 0, 100⟩, ⟨24, 0, 0, 100⟩] [50, 150]).length) ∧
    ((position [⟨0, 0, 0, 100⟩, ⟨24, 0, 0, 100⟩] [50, 150]).getD (0 + 1) 9 =
       (signal [⟨0, 0, 0, 100⟩, ⟨24, 0, 0, 100⟩] [50, 150]).getD 0 9 ∧
     (position [⟨0, 0, 0, 100⟩, ⟨24, 0, 0, 100⟩] [50, 150]).getD 0 9 = 0 ∧
     (signal [⟨0, 0, 0, 100⟩, ⟨24, 0, 0, 100⟩] [50, 150]).getD 0 9 =
       (if (([⟨0, 0, 0, 100⟩, ⟨24, 0, 0, 100⟩] : List Bar).getD 0 default).close >
            ([(50 : ℚ), 150]).getD 0 0
        then 1
        else if (([⟨0, 0, 0, 100⟩, ⟨24, 0, 0, 100⟩] : List Bar).getD 0 default).close <
            ([(50 : ℚ), 150]).getD 0 0
        then -1 else 0)) :=
  ⟨by decide,
    C6_position_is_lagged_signal [⟨0, 0, 0, 100⟩, ⟨24, 0, 0, 100⟩] [50, 150] 0 (by decide)⟩

/-- Claim C7: on any non-empty input the cumulative equity at bar 0 equals
`initial_capital` exactly (the first position is flat, so the first bar's
net P&L is 0). -/
theorem C7_equity_starts_at_capital (bars : List Bar) (sars : List ℚ) (cap fee : ℚ)
    (hb : bars ≠ []) (hs : sars ≠ []) :
    (equity bars sars cap fee).getD 0 (cap + 1) = cap := by
  have h : 0 < (equity bars sars cap fee).length := by
    rw [equity_length]
    cases bars with
    | nil => exact absurd rfl hb
    | cons b bs =>
      cases sars with
      | nil => exact absurd rfl hs
      | cons s ss => simp
  exact equity_getD_zero bars sars cap fee (cap + 1) h

/-- Witness for C7 at a concrete one-bar input. -/
theorem C7_equity_starts_at_capital_witness :
    (([⟨0, 0, 0, 100⟩] : List Bar) ≠ [] ∧ ([(50 : ℚ)] : List ℚ) ≠ []) ∧
    (equity [⟨0, 0, 0, 100⟩] [50] 100000 100).getD 0 (100000 + 1) = 100000 :=
  ⟨⟨by decide, by decide⟩,
    C7_equity_starts_at_capital [⟨0, 0, 0, 100⟩] [50] 100000 100 (by decide) (by decide)⟩

/-! ### Sharpe ratio (claim C4) -/

theorem sampleVar_eq_none_iff (xs : List ℚ) : sampleVar xs = none ↔ xs.length < 2 := by
  by_cases h : xs.length < 2 <;> simp [sampleVar, h]

theorem sampleVar_nonneg (xs : List ℚ) (v : ℚ) (h : sampleVar xs = some v) : 0 ≤ v := by
  by_cases hl : xs.length < 2
  · simp [sampleVar, hl] at h
  · simp only [sampleVar, hl, if_false, Option.some.injEq] at h
    subst h
    apply div_nonneg
    · apply List.sum_nonneg
      intro a ha
      obtain ⟨x, _, hx⟩ := List.mem_map.mp ha
      rw [← hx]
      positivity
    · have : (2 : ℚ) ≤ xs.length := by exact_mod_cast Nat.le_of_not_lt hl
      linarith

theorem sharpe_isNone_iff (xs : List ℚ) :
    (sharpe xs).isNone = true ↔ (xs.length < 2 ∨ sampleVar xs = some 0) := by
  cases h : sampleVar xs with
  | none =>
    have hl := (sampleVar_eq_none_iff xs).mp h
    simp [sharpe, h, hl]
  | some v =>
    have hl : ¬ xs.length < 2 := by
      intro hl
      rw [(sampleVar_eq_none_iff xs).mpr hl] at h
      exact Option.noConfusion h
    have hv := sampleVar_nonneg xs v h
    by_cases hpos : 0 < v
    · have : ¬ v = 0 := by linarith
      simp [sharpe, h, hpos, hl, this]
    · have : v = 0 := le_antisymm (le_of_not_lt hpos) hv
      simp [sharpe, h, hpos, hl, this]

/-- Claim C4: the Sharpe ratio of the engine's daily returns (defined as
`mean/stdev × √252` whenever the sample standard deviation is positive) is
reported as NaN exactly when the daily-return sample has fewer than 2
observations or zero standard deviation; being a total function, the
degenerate case cannot raise. -/
theorem C4_sharpe_nan_iff (bars : List Bar) (sars : List ℚ) (cap fee : ℚ) :
    (sharpe (daily_ret bars sars cap fee)).isNone = true ↔
      ((daily_ret bars sars cap fee).length < 2 ∨
        sampleVar (daily_ret bars sars cap fee) = some 0) :=
  sharpe_isNone_iff _

/-! ### Maximum drawdown (claim C3) -/

theorem listMax_eq_none_iff (xs : List ℚ) : listMax xs = none ↔ xs = [] := by
  cases xs <;> simp [listMax]

theorem listMax_some (xs : List ℚ) (v : ℚ) (h : listMax xs = some v) :
    v ∈ xs ∧ ∀ y ∈ xs, y ≤ v := by
  induction xs generalizing v with
  | nil => simp [listMax] at h
  | cons x tl ih =>
    cases htl : listMax tl with
    | none =>
      have h0 : tl = [] := (listMax_eq_none_iff tl).mp htl
      subst h0
      simp only [listMax] at h
      injection h with h
      subst h
      exact ⟨by simp, by simp⟩
    | some m =>
      simp only [listMax, htl] at h
      injection h with h
      obtain ⟨hm1, hm2⟩ := ih m htl
      subst h
      constructor
      · rcases max_choice x m with hc | hc <;> rw [hc]
        · simp
        · exact List.mem_cons_of_mem x hm1
      · intro y hy
        rcases List.mem_cons.mp hy with hc | hc
        · subst hc; exact le_max_left _ _
        · exact le_trans (hm2 y hc) (le_max_right _ _)

theorem listMax_spec (xs : List ℚ) (hne : xs ≠ []) :
    ∃ v, listMax xs = some v ∧ v ∈ xs ∧ ∀ y ∈ xs, y ≤ v := by
  cases h : listMax xs with
  | none => exact absurd ((listMax_eq_none_iff xs).mp h) hne
  | some v => exact ⟨v, rfl, (listMax_some xs v h).1, (listMax_some xs v h).2⟩

theorem dd_aux_bounds (tl : List ℚ) (m : ℚ) (hm : 0 < m) (hpos : ∀ x ∈ tl, 0 < x) :
    ∀ d ∈ List.zipWith (fun mm e => (mm - e) / mm) (cummaxAux m tl) tl, 0 ≤ d ∧ d < 1 := by
  induction tl generalizing m with
  | nil => simp [cummaxAux]
  | cons x tl ih =>
    have hx : 0 < x := hpos x (by simp)
    have hmx : 0 < max m x := lt_max_of_lt_right hx
    intro d hd
    simp only [cummaxAux, List.zipWith_cons_cons, List.mem_cons] at hd
    rcases hd with hd | hd
    · subst hd
      constructor
      · apply div_nonneg _ (le_of_lt hmx)
        simp [le_max_right]
      · rw [div_lt_one hmx]
        linarith
    · exact ih (max m x) hmx (fun y hy => hpos y (List.mem_cons_of_mem x hy)) d hd

theorem dd_aux_zero_iff (tl : List ℚ) (m : ℚ) (hm : 0 < m) (hpos : ∀ x ∈ tl, 0 < x) :
    (∀ d ∈ List.zipWith (fun mm e => (mm - e) / mm) (cummaxAux m tl) tl, d = 0) ↔
      List.Chain (· ≤ ·) m tl := by
  induction tl generalizing m with
  | nil => simp [cummaxAux]
  | cons x tl ih =>
    have hx : 0 < x := hpos x (by simp)
    have hmx : 0 < max m x := lt_max_of_lt_right hx
    simp only [cummaxAux, List.zipWith_cons_cons, List.mem_cons, List.chain_cons]
    constructor
    · intro h
      have hhead := h _ (Or.inl rfl)
      have hle : m ≤ x := by
        rw [div_eq_zero_iff] at hhead
        rcases hhead with h1 | h1
        · have : max m x = x := by linarith
          exact max_eq_right_iff.mp this
        · exact absurd h1 (ne_of_gt hmx)
      have hmax : max m x = x := max_eq_right hle
      refine ⟨hle, ?_⟩
      apply (ih x hx (fun y hy => hpos y (List.mem_cons_of_mem x hy))).mp
      intro d hd
      apply h d
      right
      rw [hmax]
      exact hd
    · rintro ⟨hle, hchain⟩
      have hmax : max m x = x := max_eq_right hle
      intro d hd
      rcases hd with hd | hd
      · subst hd
        rw [hmax]
        simp
      · rw [hmax] at hd
        exact (ih x hx (fun y hy => hpos y (List.mem_cons_of_mem x hy))).mpr hchain d hd

/-- The drawdown statistic on any non-empty, everywhere-positive equity
series: it is defined, lies in `[0, 1]`, and vanishes iff the series is
non-decreasing. -/
theorem max_dd_spec (eq : List ℚ) (hne : eq ≠ []) (hpos : ∀ x ∈ eq, 0 < x) :
    ∃ v, max_dd eq = some v ∧ 0 ≤ v ∧ v ≤ 1 ∧
      (v = 0 ↔ List.Chain' (· ≤ ·) eq) := by
  obtain ⟨x, tl, rfl⟩ := List.exists_cons_of_ne_nil hne
  have hx : 0 < x := hpos x (by simp)
  have htlpos : ∀ y ∈ tl, 0 < y := fun y hy => hpos y (List.mem_cons_of_mem x hy)
  have hdd : drawdowns (x :: tl) =
      0 :: List.zipWith (fun mm e => (mm - e) / mm) (cummaxAux x tl) tl := by
    simp [drawdowns, cummax, cummaxAux, max_self]
  have hbounds := dd_aux_bounds tl x hx htlpos
  have hzero := dd_aux_zero_iff tl x hx htlpos
  obtain ⟨v, hv1, hv2, hv3⟩ := listMax_spec (drawdowns (x :: tl)) (by rw [hdd]; simp)
  refine ⟨v, hv1, ?_, ?_, ?_⟩
  · have h0 : (0 : ℚ) ∈ drawdowns (x :: tl) := by rw [hdd]; simp
    exact hv3 0 h0
  · rw [hdd] at hv2
    rcases List.mem_cons.mp hv2 with hc | hc
    · subst hc; norm_num
    · exact le_of_lt (hbounds v hc).2
  · constructor
    · intro hv0
      have hall : ∀ d ∈ List.zipWith (fun mm e => (mm - e) / mm) (cummaxAux x tl) tl,
          d = 0 := by
        intro d hd
        have h1 : d ≤ v := hv3 d (by rw [hdd]; exact List.mem_cons_of_mem _ hd)
        have h2 : 0 ≤ d := (hbounds d hd).1
        rw [hv0] at h1
        linarith
      exact hzero.mp hall
    · intro hchain
      have hall := hzero.mpr hchain
      rw [hdd] at hv2
      rcases List.mem_cons.mp hv2 with hc | hc
      · exact hc
      · exact hall v hc

theorem foldl_min_le (xs : List ℕ) (x : ℕ) :
    xs.foldl min x ≤ x ∧ ∀ a ∈ xs, xs.foldl min x ≤ a := by
  induction xs generalizing x with
  | nil => simp
  | cons y tl ih =>
    have h := ih (min x y)
    refine ⟨le_trans h.1 (min_le_left x y), ?_⟩
    intro a ha
    rcases List.mem_cons.mp ha with hc | hc
    · subst hc; exact le_trans h.1 (min_le_right x a)
    · exact h.2 a hc

theorem le_foldl_max (xs : List ℕ) (x : ℕ) :
    x ≤ xs.foldl max x ∧ ∀ a ∈ xs, a ≤ xs.foldl max x := by
  induction xs generalizing x with
  | nil => simp
  | cons y tl ih =>
    have h := ih (max x y)
    refine ⟨le_trans (le_max_left x y) h.1, ?_⟩
    intro a ha
    rcases List.mem_cons.mp ha with hc | hc
    · subst hc; exact le_trans (le_max_right x a) h.1
    · exact h.2 a hc

theorem minNat_le (xs : List ℕ) (a : ℕ) (ha : a ∈ xs) : minNat xs ≤ a := by
  cases xs with
  | nil => simp at ha
  | cons x tl =>
    rcases List.mem_cons.mp ha with hc | hc
    · subst hc; exact (foldl_min_le tl a).1
    · exact (foldl_min_le tl x).2 a hc

theorem le_maxNat (xs : List ℕ) (a : ℕ) (ha : a ∈ xs) : a ≤ maxNat xs := by
  cases xs with
  | nil => simp at ha
  | cons x tl =>
    rcases List.mem_cons.mp ha with hc | hc
    · subst hc; exact (le_foldl_max tl a).1
    · exact (le_foldl_max tl x).2 a hc

theorem sim_rows_length (bars : List Bar) (sars : List ℚ) (cap fee : ℚ) :
    (sim_rows bars sars cap fee).length = min bars.length sars.length := by
  simp only [sim_rows, List.length_zipWith, List.length_zip,
    net_pnl_length, equity_length]
  omega

/-- The bucket generated for the key of a row that is present. -/
theorem resampleKeyed_mem_bucket (key : ℕ → ℕ) (rows : List (ℕ × ℚ × ℚ))
    (r0 : ℕ × ℚ × ℚ) (h0 : r0 ∈ rows) :
    (key r0.1,
      ((rows.filter (fun r => decide (key r.1 = key r0.1))).map (fun r => r.2.1)).sum,
      ((rows.filter (fun r => decide (key r.1 = key r0.1))).getLast?).map
        (fun r => r.2.2)) ∈ resampleKeyed key rows := by
  match rows, h0 with
  | r :: rest, h0 =>
    have hk : key r0.1 ∈ (r :: rest).map (fun r => key r.1) :=
      List.mem_map.mpr ⟨r0, h0, rfl⟩
    apply List.mem_map.mpr
    refine ⟨key r0.1, ?_, rfl⟩
    rw [List.mem_range'_1]
    have h1 := minNat_le _ _ hk
    have h2 := le_maxNat _ _ hk
    omega

theorem daily_ne_nil (bars : List Bar) (sars : List ℚ) (cap fee : ℚ)
    (hb : bars ≠ []) (hs : sars ≠ []) : daily bars sars cap fee ≠ [] := by
  have hrows : sim_rows bars sars cap fee ≠ [] := by
    apply List.ne_nil_of_length_pos
    rw [sim_rows_length]
    cases bars with
    | nil => exact absurd rfl hb
    | cons b bs =>
      cases sars with
      | nil => exact absurd rfl hs
      | cons s ss => simp
  obtain ⟨r0, hr0⟩ := List.exists_mem_of_ne_nil _ hrows
  have hbucket := resampleKeyed_mem_bucket dayOf _ r0 hr0
  intro hdaily
  have hall := List.filterMap_eq_nil_iff.mp hdaily
  have hfil : r0 ∈ (sim_rows bars sars cap fee).filter
      (fun r => decide (dayOf r.1 = dayOf r0.1)) := by
    rw [List.mem_filter]
    exact ⟨hr0, by simp⟩
  have hfne : (sim_rows bars sars cap fee).filter
      (fun r => decide (dayOf r.1 = dayOf r0.1)) ≠ [] := List.ne_nil_of_mem hfil
  have := hall _ hbucket
  cases hlast : ((sim_rows bars sars cap fee).filter
      (fun r => decide (dayOf r.1 = dayOf r0.1))).getLast? with
  | none => exact hfne (List.getLast?_eq_none_iff.mp hlast)
  | some rl => rw [hlast] at this; simp at this

theorem daily_equity_ne_nil (bars : List Bar) (sars : List ℚ) (cap fee : ℚ)
    (hb : bars ≠ []) (hs : sars ≠ []) : daily_equity bars sars cap fee ≠ [] := by
  have := daily_ne_nil bars sars cap fee hb hs
  simp only [daily_equity]
  intro h
  exact this (List.map_eq_nil_iff.mp h)

/-- Claim C3, corrected: the claim's bound fails as stated (drawdown can
exceed 1 when equity goes negative, see the counterexample), but on every
input whose daily equity series is everywhere positive the reported
maximum drawdown is defined, lies in `[0, 1]`, and is 0 iff the daily
equity series is non-decreasing throughout. -/
theorem C3_max_drawdown_bounds (bars : List Bar) (sars : List ℚ) (cap fee : ℚ)
    (hb : bars ≠ []) (hs : sars ≠ [])
    (hpos : ∀ x ∈ daily_equity bars sars cap fee, 0 < x) :
    ∃ v, max_dd (daily_equity bars sars cap fee) = some v ∧ 0 ≤ v ∧ v ≤ 1 ∧
      (v = 0 ↔ List.Chain' (· ≤ ·) (daily_equity bars sars cap fee)) :=
  max_dd_spec _ (daily_equity_ne_nil bars sars cap fee hb hs) hpos

/-- Counterexample to C3 as stated: on this four-bar crash (always long,
each close halving, one bar per day) the reported maximum drawdown is
1501/1000 > 1, because equity ends below zero while the peak stays at the
initial capital. -/
theorem C3_max_drawdown_counterexample :
    max_dd (daily_equity
        [⟨0, 0, 0, 100⟩, ⟨24, 0, 0, 50⟩, ⟨48, 0, 0, 25⟩, ⟨72, 0, 0, 25 / 2⟩]
        [0, 0, 0, 0] 100000 100) = some (1501 / 1000) ∧
      (1 : ℚ) < 1501 / 1000 := by
  constructor
  · decide
  · norm_num

/-- Witness for the corrected C3 on a concrete two-bar input with positive
daily equity. -/
theorem C3_max_drawdown_bounds_witness :
    (([⟨0, 0, 0, 100⟩, ⟨24, 0, 0, 101⟩] : List Bar) ≠ [] ∧ ([(0 : ℚ), 0] : List ℚ) ≠ [] ∧
      (∀ x ∈ daily_equity [⟨0, 0, 0, 100⟩, ⟨24, 0, 0, 101⟩] [0, 0] 100000 100, 0 < x)) ∧
    (∃ v, max_dd (daily_equity [⟨0, 0, 0, 100⟩, ⟨24, 0, 0, 101⟩] [0, 0] 100000 100) = some v ∧
      0 ≤ v ∧ v ≤ 1 ∧
      (v = 0 ↔ List.Chain' (· ≤ ·)
        (daily_equity [⟨0, 0, 0, 100⟩, ⟨24, 0, 0, 101⟩] [0, 0] 100000 100))) :=
  ⟨⟨by decide, by decide, by decide⟩,
    C3_max_drawdown_bounds [⟨0, 0, 0, 100⟩, ⟨24, 0, 0, 101⟩] [0, 0] 100000 100
      (by decide) (by decide) (by decide)⟩

/-! ### Claim C8: too little data for the indicator -/

/-- Claim C8 (the indicator is spec-modelled, see `psarSpec`): with fewer
than two bars the engine fails with `InsufficientDataError` and produces no
partial output. -/
theorem C8_insufficient_data (accel mAccel cap fee : ℚ) (bars : List Bar)
    (h : bars.length < 2) :
    runBacktest accel mAccel cap fee bars = Except.error "InsufficientDataError" := by
  cases bars with
  | nil => rfl
  | cons b0 rest =>
    cases rest with
    | nil => rfl
    | cons b1 rest2 => simp only [List.length_cons] at h; omega

/-- Witness for C8 at a concrete one-bar input. -/
theorem C8_insufficient_data_witness :
    (([⟨0, 1, 1, 1⟩] : List Bar).length < 2) ∧
    runBacktest (5 / 1000) (5 / 100) 100000 100 [⟨0, 1, 1, 1⟩] =
      Except.error "InsufficientDataError" :=
  ⟨by decide, C8_insufficient_data (5 / 1000) (5 / 100) 100000 100 [⟨0, 1, 1, 1⟩] (by decide)⟩

/-! ### Claim C9: first monthly return -/

theorem resampleKeyed_ne_nil (key : ℕ → ℕ) (rows : List (ℕ × ℚ × ℚ)) (h : rows ≠ []) :
    resampleKeyed key rows ≠ [] := by
  obtain ⟨r, rest, rfl⟩ := List.exists_cons_of_ne_nil h
  simp only [resampleKeyed, ne_eq, List.map_eq_nil_iff, List.range'_eq_nil]
  omega

theorem monthly_ne_nil (bars : List Bar) (sars : List ℚ) (cap fee : ℚ)
    (hb : bars ≠ []) (hs : sars ≠ []) : monthly bars sars cap fee ≠ [] := by
  apply resampleKeyed_ne_nil
  apply List.ne_nil_of_length_pos
  rw [sim_rows_length]
  cases bars with
  | nil => exact absurd rfl hb
  | cons b bs =>
    cases sars with
    | nil => exact absurd rfl hs
    | cons s ss => simp

/-- Claim C9: the first bucket's monthly return is NaN (never zero), and
each later bucket's return is the percentage change of the bucketed
last-per-month equity (NaN-propagating). -/
theorem C9_monthly_first_return_nan (bars : List Bar) (sars : List ℚ) (cap fee : ℚ)
    (hb : bars ≠ []) (hs : sars ≠ []) :
    (monthly_ret bars sars cap fee).head? = some none ∧
    ∀ i, i + 1 < (monthly_ret bars sars cap fee).length →
      (monthly_ret bars sars cap fee).getD (i + 1) (some 0) =
        ((monthly_equity bars sars cap fee).getD i none).bind (fun a =>
          ((monthly_equity bars sars cap fee).getD (i + 1) none).map
            (fun b => (b / a - 1) * 100)) := by
  have hne : monthly_equity bars sars cap fee ≠ [] := by
    simp only [monthly_equity, ne_eq, List.map_eq_nil_iff]
    exact monthly_ne_nil bars sars cap fee hb hs
  constructor
  · obtain ⟨e, tl, heq⟩ := List.exists_cons_of_ne_nil hne
    simp only [monthly_ret, pct_change100, heq, shiftFill, List.zipWith_cons_cons]
    simp
  · intro i hi
    have hshift : i + 1 < (shiftFill (none : Option ℚ)
        (monthly_equity bars sars cap fee)).length := by
      rw [shiftFill_length]
      simpa [monthly_ret, pct_change100, shiftFill_length] using hi
    simp only [monthly_ret, pct_change100] at hi ⊢
    rw [zipWith_getD _ _ _ _ hi none none, shiftFill_getD _ _ _ _ hshift]
    simp

/-- Witness for C9 on a concrete input spanning three months. -/
theorem C9_monthly_first_return_nan_witness :
    (([⟨0, 0, 0, 100⟩, ⟨2000, 0, 0, 100⟩] : List Bar) ≠ [] ∧ ([(0 : ℚ), 0] : List ℚ) ≠ []) ∧
    ((monthly_ret [⟨0, 0, 0, 100⟩, ⟨2000, 0, 0, 100⟩] [0, 0] 100000 100).head? = some none ∧
     ∀ i, i + 1 < (monthly_ret [⟨0, 0, 0, 100⟩, ⟨2000, 0, 0, 100⟩] [0, 0] 100000 100).length →
       (monthly_ret [⟨0, 0, 0, 100⟩, ⟨2000, 0, 0, 100⟩] [0, 0] 100000 100).getD (i + 1) (some 0) =
         ((monthly_equity [⟨0, 0, 0, 100⟩, ⟨2000, 0, 0, 100⟩] [0, 0] 100000 100).getD i none).bind
           (fun a =>
             ((monthly_equity [⟨0, 0, 0, 100⟩, ⟨2000, 0, 0, 100⟩] [0, 0] 100000 100).getD
                 (i + 1) none).map (fun b => (b / a - 1) * 100))) :=
  ⟨⟨by decide, by decide⟩,
    C9_monthly_first_return_nan [⟨0, 0, 0, 100⟩, ⟨2000, 0, 0, 100⟩] [0, 0] 100000 100
      (by decide) (by decide)⟩

/-! ### Claim C10: monthly keeps empty buckets, daily drops them -/

theorem zipWith_pair_map_fst : ∀ (l1 : List Bar) (l2 : List (ℚ × ℚ)),
    l1.length ≤ l2.length →
    (List.zipWith (fun b pe => (b.dt, pe)) l1 l2).map (fun r => r.1) = l1.map Bar.dt
  | [], _, _ => rfl
  | b :: t1, pe :: t2, h => by
    simp only [List.zipWith_cons_cons, List.map_cons]
    rw [zipWith_pair_map_fst t1 t2 (by simpa using h)]
  | b :: t1, [], h => by simp at h

theorem sim_rows_map_fst (bars : List Bar) (sars : List ℚ) (cap fee : ℚ)
    (hlen : sars.length = bars.length) :
    (sim_rows bars sars cap fee).map (fun r => r.1) = bars.map Bar.dt := by
  apply zipWith_pair_map_fst
  simp [net_pnl_length, equity_length, hlen]

theorem foldl_min_of_le (tl : List ℕ) (x : ℕ) (h : ∀ a ∈ tl, x ≤ a) :
    tl.foldl min x = x := by
  induction tl generalizing x with
  | nil => rfl
  | cons y tl2 ih =>
    have hxy : min x y = x := min_eq_left (h y (by simp))
    simp only [List.foldl_cons, hxy]
    exact ih x (fun a ha => h a (List.mem_cons_of_mem y ha))

theorem minNat_of_sorted (x : ℕ) (tl : List ℕ) (h : List.Chain' (· ≤ ·) (x :: tl)) :
    minNat (x :: tl) = x := by
  apply foldl_min_of_le
  have hp : List.Pairwise (· ≤ ·) (x :: tl) := List.chain'_iff_pairwise.mp h
  exact (List.pairwise_cons.mp hp).1

theorem foldl_max_of_chain (tl : List ℕ) (x : ℕ) (h : List.Chain (· ≤ ·) x tl) :
    tl.foldl max x = (x :: tl).getLast (by simp) := by
  induction tl generalizing x with
  | nil => rfl
  | cons y tl2 ih =>
    have hc := List.chain_cons.mp h
    have hxy : max x y = y := max_eq_right hc.1
    simp only [List.foldl_cons, hxy]
    rw [ih y hc.2]
    simp [List.getLast_cons]

theorem maxNat_of_sorted (x : ℕ) (tl : List ℕ) (h : List.Chain' (· ≤ ·) (x :: tl)) :
    maxNat (x :: tl) = (x :: tl).getLast (by simp) := by
  exact foldl_max_of_chain tl x h

theorem resampleKeyed_map_fst (key : ℕ → ℕ) (rows : List (ℕ × ℚ × ℚ)) (hne : rows ≠ []) :
    (resampleKeyed key rows).map (fun r => r.1) =
      List.range' (minNat (rows.map (fun r => key r.1)))
        (maxNat (rows.map (fun r => key r.1)) - minNat (rows.map (fun r => key r.1)) + 1) := by
  obtain ⟨r, rest, rfl⟩ := List.exists_cons_of_ne_nil hne
  simp only [resampleKeyed, List.map_map]
  have : ((fun r => r.1) ∘ (fun k =>
      ((k : ℕ),
        (((r :: rest).filter (fun r2 => decide (key r2.1 = k))).map (fun r2 => r2.2.1)).sum,
        (((r :: rest).filter (fun r2 => decide (key r2.1 = k))).getLast?).map
          (fun r2 => r2.2.2)))) = fun k => k := rfl
  rw [this]
  simp

theorem getLast_cons_map_month (b : Bar) (bs : List Bar) :
    (monthOf b.dt :: (bs.map Bar.dt).map monthOf).getLast (by simp) =
      monthOf ((b :: bs).getLastD default).dt := by
  induction bs generalizing b with
  | nil => rfl
  | cons b2 bs2 ih =>
    simp only [List.map_cons]
    rw [List.getLast_cons (by simp)]
    exact ih b2

theorem sim_rows_ne_nil (bars : List Bar) (sars : List ℚ) (cap fee : ℚ)
    (hb : bars ≠ []) (hs : sars ≠ []) : sim_rows bars sars cap fee ≠ [] := by
  apply List.ne_nil_of_length_pos
  rw [sim_rows_length]
  cases bars with
  | nil => exact absurd rfl hb
  | cons b bs =>
    cases sars with
    | nil => exact absurd rfl hs
    | cons s ss => simp

/-- Claim C10: the monthly table has one row for every calendar month from
the first bar's month to the last bar's month; a month containing no bar
appears with net P&L 0 and NaN equity; every surviving daily bucket's day
contains at least one bar. -/
theorem C10_monthly_vs_daily_buckets (bars : List Bar) (sars : List ℚ) (cap fee : ℚ)
    (hlen : sars.length = bars.length) (hb : bars ≠ [])
    (hsort : List.Chain' (· ≤ ·) (bars.map Bar.dt)) :
    (monthly bars sars cap fee).map (fun r => r.1) =
      List.range' (monthOf ((bars.headD default).dt))
        (monthOf ((bars.getLastD default).dt) - monthOf ((bars.headD default).dt) + 1) ∧
    (∀ m s e, (m, s, e) ∈ monthly bars sars cap fee →
      (∀ r ∈ sim_rows bars sars cap fee, monthOf r.1 ≠ m) → s = 0 ∧ e = none) ∧
    (∀ k s e, (k, s, e) ∈ daily bars sars cap fee →
      ∃ r ∈ sim_rows bars sars cap fee, dayOf r.1 = k) := by
  have hs : sars ≠ [] := by
    intro h
    subst h
    simp only [List.length_nil] at hlen
    exact hb (List.eq_nil_of_length_eq_zero hlen.symm)
  have hrows : sim_rows bars sars cap fee ≠ [] := sim_rows_ne_nil bars sars cap fee hb hs
  refine ⟨?_, ?_, ?_⟩
  · have hks : (sim_rows bars sars cap fee).map (fun r => monthOf r.1) =
        (bars.map Bar.dt).map monthOf := by
      have hcomp : (fun (r : ℕ × ℚ × ℚ) => monthOf r.1) =
          monthOf ∘ (fun (r : ℕ × ℚ × ℚ) => r.1) := rfl
      rw [hcomp, ← List.map_map, sim_rows_map_fst bars sars cap fee hlen]
    have hsortks : List.Chain' (· ≤ ·) ((bars.map Bar.dt).map monthOf) :=
      List.chain'_map_of_chain' monthOf (fun a b h => Nat.div_le_div_right h) hsort
    rw [monthly, resampleKeyed_map_fst monthOf _ hrows, hks]
    obtain ⟨b, bs, rfl⟩ := List.exists_cons_of_ne_nil hb
    simp only [List.map_cons] at hsortks ⊢
    rw [minNat_of_sorted _ _ hsortks, maxNat_of_sorted _ _ hsortks,
      getLast_cons_map_month b bs]
    rfl
  · intro m s e hmem hempty
    obtain ⟨r0, rest, hre⟩ := List.exists_cons_of_ne_nil hrows
    rw [monthly, hre] at hmem
    simp only [resampleKeyed] at hmem
    obtain ⟨k, hk, heq⟩ := List.mem_map.mp hmem
    have hmk : k = m := congrArg (fun p => p.1) heq
    have hfil : (r0 :: rest).filter (fun r => decide (monthOf r.1 = k)) = [] := by
      rw [List.filter_eq_nil_iff]
      intro r hr
      simp only [decide_eq_true_eq]
      rw [hmk]
      apply hempty r
      rw [hre]
      exact hr
    have hs2 := congrArg (fun p => p.2.1) heq
    have he2 := congrArg (fun p => p.2.2) heq
    simp only [hfil] at hs2 he2
    simp only [List.map_nil, List.sum_nil, List.getLast?_nil, Option.map_none'] at hs2 he2
    exact ⟨hs2.symm, he2.symm⟩
  · intro k s e hmem
    obtain ⟨r0, rest, hre⟩ := List.exists_cons_of_ne_nil hrows
    rw [daily, hre] at hmem
    obtain ⟨a, ha, hfa⟩ := List.mem_filterMap.mp hmem
    simp only [resampleKeyed] at ha
    obtain ⟨kk, hkk, heq⟩ := List.mem_map.mp ha
    subst heq
    simp only at hfa
    cases hlast : ((r0 :: rest).filter (fun r => decide (dayOf r.1 = kk))).getLast? with
    | none => rw [hlast] at hfa; simp at hfa
    | some rl =>
      rw [hlast] at hfa
      simp only [Option.map_some', Option.some.injEq] at hfa
      have hk : kk = k := congrArg (fun p => p.1) hfa
      have hrlmem := List.mem_of_getLast?_eq_some hlast
      rw [List.mem_filter] at hrlmem
      refine ⟨rl, ?_, ?_⟩
      · rw [hre]
        exact hrlmem.1
      · have hday : dayOf rl.1 = kk := by simpa using hrlmem.2
        rw [hday, hk]

/-- Witness for C10 on a concrete two-bar input spanning three months (the
middle month is empty). -/
theorem C10_monthly_vs_daily_buckets_witness :
    (([(0 : ℚ), 0] : List ℚ).length = ([⟨0, 0, 0, 100⟩, ⟨2000, 0, 0, 100⟩] : List Bar).length ∧
      ([⟨0, 0, 0, 100⟩, ⟨2000, 0, 0, 100⟩] : List Bar) ≠ [] ∧
      List.Chain' (· ≤ ·) (([⟨0, 0, 0, 100⟩, ⟨2000, 0, 0, 100⟩] : List Bar).map Bar.dt)) ∧
    ((monthly [⟨0, 0, 0, 100⟩, ⟨2000, 0, 0, 100⟩] [0, 0] 100000 100).map (fun r => r.1) =
      List.range'
        (monthOf ((([⟨0, 0, 0, 100⟩, ⟨2000, 0, 0, 100⟩] : List Bar).headD default).dt))
        (monthOf ((([⟨0, 0, 0, 100⟩, ⟨2000, 0, 0, 100⟩] : List Bar).getLastD default).dt) -
          monthOf ((([⟨0, 0, 0, 100⟩, ⟨2000, 0, 0, 100⟩] : List Bar).headD default).dt) + 1) ∧
    (∀ m s e, (m, s, e) ∈ monthly [⟨0, 0, 0, 100⟩, ⟨2000, 0, 0, 100⟩] [0, 0] 100000 100 →
      (∀ r ∈ sim_rows [⟨0, 0, 0, 100⟩, ⟨2000, 0, 0, 100⟩] [0, 0] 100000 100,
        monthOf r.1 ≠ m) → s = 0 ∧ e = none) ∧
    (∀ k s e, (k, s, e) ∈ daily [⟨0, 0, 0, 100⟩, ⟨2000, 0, 0, 100⟩] [0, 0] 100000 100 →
      ∃ r ∈ sim_rows [⟨0, 0, 0, 100⟩, ⟨2000, 0, 0, 100⟩] [0, 0] 100000 100,
        dayOf r.1 = k)) :=
  ⟨⟨by decide, by decide, by simp [List.chain'_cons]⟩,
    C10_monthly_vs_daily_buckets [⟨0, 0, 0, 100⟩, ⟨2000, 0, 0, 100⟩] [0, 0] 100000 100
      (by decide) (by decide) (by simp [List.chain'_cons])⟩

/-! ### Trade-log refinement: groups of the id-groupby are the segments -/

theorem segsFrom_cons_false (r : BRow) (tl : List (Bool × BRow)) :
    segsFrom ((false, r) :: tl) = segsFrom tl := by
  rw [segsFrom]
  simp

theorem segsFrom_cons_true (r : BRow) (tl : List (Bool × BRow)) :
    segsFrom ((true, r) :: tl) =
      (r :: (spanNonStart tl).1) :: segsFrom (spanNonStart tl).2 := by
  rw [segsFrom]
  simp

theorem attach_eq_zip : ∀ (bs : List Bool) (rs : List BRow) (k : ℕ),
    rs.zip (cumsumNatFrom k (bs.map (fun b => if b then 1 else 0))) =
      attach k (bs.zip rs)
  | [], rs, k => by cases rs <;> rfl
  | b :: bt, [], k => rfl
  | b :: bt, r :: rt, k => by
    simp only [List.map_cons, cumsumNatFrom, List.zip_cons_cons, attach]
    have hk : k + (if b then 1 else 0) = if b then k + 1 else k := by
      cases b <;> simp
    rw [hk, attach_eq_zip bt rt (if b then k + 1 else k)]
    rfl

theorem ids_ge : ∀ (xs : List (Bool × BRow)) (k : ℕ) (p : BRow × ℕ),
    p ∈ attach k xs → k ≤ p.2
  | [], _, _, h => by simp [attach] at h
  | (b, r) :: tl, k, p, h => by
    simp only [attach, List.mem_cons] at h
    rcases h with h | h
    · subst h
      cases b <;> simp
    · have := ids_ge tl (if b then k + 1 else k) p h
      cases b
      · simpa using this
      · simp only [if_true] at this
        omega

theorem spanNonStart_decomp : ∀ (xs : List (Bool × BRow)),
    ((spanNonStart xs).1.map (fun r => ((false : Bool), r))) ++ (spanNonStart xs).2 = xs
  | [] => rfl
  | (b, r) :: tl => by
    by_cases hb : b
    · subst hb
      simp [spanNonStart]
    · simp only [Bool.not_eq_true] at hb
      subst hb
      simp only [spanNonStart, Bool.false_eq_true, if_false, List.map_cons,
        List.cons_append]
      rw [spanNonStart_decomp tl]

theorem spanNonStart_snd_shape (xs : List (Bool × BRow)) :
    (spanNonStart xs).2 = [] ∨
      ∃ r tl2, (spanNonStart xs).2 = (true, r) :: tl2 := by
  induction xs with
  | nil => simp [spanNonStart]
  | cons hd tl ih =>
    obtain ⟨b, r⟩ := hd
    by_cases hb : b
    · subst hb
      right
      exact ⟨r, tl, by simp [spanNonStart]⟩
    · simp only [Bool.not_eq_true] at hb
      subst hb
      simpa [spanNonStart] using ih

theorem attach_span (xs : List (Bool × BRow)) (k : ℕ) :
    attach k xs = ((spanNonStart xs).1.map (fun r => (r, k))) ++
      attach k (spanNonStart xs).2 := by
  induction xs with
  | nil => simp [spanNonStart, attach]
  | cons hd tl ih =>
    obtain ⟨b, r⟩ := hd
    by_cases hb : b
    · subst hb
      simp [spanNonStart, attach]
    · simp only [Bool.not_eq_true] at hb
      subst hb
      simp only [spanNonStart, Bool.false_eq_true, if_false, attach, List.map_cons,
        List.cons_append]
      rw [ih]

theorem countStarts_cons_false (r : BRow) (tl : List (Bool × BRow)) :
    countStarts ((false, r) :: tl) = countStarts tl := by
  simp [countStarts]

theorem countStarts_cons_true (r : BRow) (tl : List (Bool × BRow)) :
    countStarts ((true, r) :: tl) = countStarts tl + 1 := by
  simp [countStarts]

theorem countStarts_span (xs : List (Bool × BRow)) :
    countStarts (spanNonStart xs).2 = countStarts xs := by
  induction xs with
  | nil => rfl
  | cons hd tl ih =>
    obtain ⟨b, r⟩ := hd
    by_cases hb : b
    · subst hb
      simp [spanNonStart]
    · simp only [Bool.not_eq_true] at hb
      subst hb
      simp only [spanNonStart, Bool.false_eq_true, if_false]
      rw [ih, countStarts_cons_false]

theorem segsFrom_length : ∀ (xs : List (Bool × BRow)),
    (segsFrom xs).length = countStarts xs
  | [] => by simp [segsFrom, countStarts]
  | (b, r) :: tl => by
    by_cases hb : b
    · subst hb
      rw [segsFrom_cons_true, countStarts_cons_true]
      simp only [List.length_cons]
      rw [segsFrom_length (spanNonStart tl).2, countStarts_span]
    · simp only [Bool.not_eq_true] at hb
      subst hb
      rw [segsFrom_cons_false, countStarts_cons_false]
      exact segsFrom_length tl
termination_by xs => xs.length
decreasing_by
  · simpa using Nat.lt_succ_of_le (spanNonStart_snd_length tl)
  · simp

/-- The rows the id-groupby collects for the `(j+1)`-st positive id are
exactly the `j`-th segment. -/
theorem groups_eq_segs : ∀ (xs : List (Bool × BRow)) (k j : ℕ),
    ((attach k xs).filter (fun p => decide (p.2 = k + 1 + j))).map (fun p => p.1) =
      (segsFrom xs).getD j []
  | [], k, j => by simp [attach, segsFrom]
  | (b, r) :: tl, k, j => by
    by_cases hb : b
    · subst hb
      rw [segsFrom_cons_true]
      simp only [attach, if_true]
      cases j with
      | zero =>
        rw [List.filter_cons, if_pos (by simp)]
        simp only [List.map_cons, List.getD_cons_zero, List.cons.injEq, true_and]
        rw [attach_span tl (k + 1)]
        rw [List.filter_append, List.map_append]
        have hfirst : (((spanNonStart tl).1.map (fun r2 => (r2, k + 1))).filter
            (fun p => decide (p.2 = k + 1 + 0))).map (fun p => p.1) =
            (spanNonStart tl).1 := by
          rw [List.filter_map, List.map_map]
          have hpred : ((fun p : BRow × ℕ => decide (p.2 = k + 1 + 0)) ∘
              (fun r2 => (r2, k + 1))) = fun r2 => true := by
            funext r2
            show decide (k + 1 = k + 1 + 0) = true
            exact decide_eq_true (by omega)
          have hproj : ((fun p : BRow × ℕ => p.1) ∘ (fun r2 => (r2, k + 1))) =
              fun r2 : BRow => r2 := rfl
          rw [hpred, hproj]
          simp
        have hsecond : ((attach (k + 1) (spanNonStart tl).2).filter
            (fun p => decide (p.2 = k + 1 + 0))).map (fun p => p.1) = [] := by
          rcases spanNonStart_snd_shape tl with hsh | ⟨r2, tl2, hsh⟩
          · rw [hsh]
            rfl
          · rw [hsh]
            simp only [attach, if_true]
            rw [List.filter_cons]
            rw [if_neg (by simp)]
            have hnil : (attach (k + 2) tl2).filter
                (fun p => decide (p.2 = k + 1 + 0)) = [] := by
              rw [List.filter_eq_nil_iff]
              intro p hp
              have := ids_ge tl2 (k + 2) p hp
              simp only [decide_eq_true_eq]
              omega
            rw [hnil]
            simp
        rw [hfirst, hsecond, List.append_nil]
      | succ j2 =>
        rw [List.filter_cons,
          if_neg (by simp only [decide_eq_true_eq]; omega)]
        simp only [List.getD_cons_succ]
        rw [attach_span tl (k + 1), List.filter_append, List.map_append]
        have hfirst : (((spanNonStart tl).1.map (fun r2 => (r2, k + 1))).filter
            (fun p => decide (p.2 = k + 1 + (j2 + 1)))).map (fun p => p.1) = [] := by
          rw [List.filter_map]
          have hpred : ((fun p : BRow × ℕ => decide (p.2 = k + 1 + (j2 + 1))) ∘
              (fun r2 => (r2, k + 1))) = fun r2 => false := by
            funext r2
            show decide (k + 1 = k + 1 + (j2 + 1)) = false
            exact decide_eq_false (by omega)
          rw [hpred]
          simp
        have hsecond : ((attach (k + 1) (spanNonStart tl).2).filter
            (fun p => decide (p.2 = k + 1 + (j2 + 1)))).map (fun p => p.1) =
            (segsFrom (spanNonStart tl).2).getD j2 [] := by
          have hre : k + 1 + (j2 + 1) = (k + 1) + 1 + j2 := by omega
          rw [hre]
          exact groups_eq_segs (spanNonStart tl).2 (k + 1) j2
        rw [hfirst, hsecond, List.nil_append]
    · simp only [Bool.not_eq_true] at hb
      subst hb
      rw [segsFrom_cons_false]
      simp only [attach, Bool.false_eq_true, if_false]
      rw [List.filter_cons]
      rw [if_neg (by simp only [decide_eq_true_eq]; omega)]
      exact groups_eq_segs tl k j
termination_by xs => xs.length
decreasing_by
  · simpa using Nat.lt_succ_of_le (spanNonStart_snd_length tl)
  · simp

theorem ids_ge_mem (xs : List (Bool × BRow)) (k a : ℕ)
    (h : a ∈ (attach k xs).map (fun p => p.2)) : k ≤ a := by
  obtain ⟨p, hp, hpa⟩ := List.mem_map.mp h
  rw [← hpa]
  exact ids_ge xs k p hp

theorem mem_ids_attach : ∀ (xs : List (Bool × BRow)) (k a : ℕ), k < a →
    (a ∈ (attach k xs).map (fun p => p.2) ↔ a ≤ k + countStarts xs)
  | [], k, a, ha => by
    simp only [attach, List.map_nil, List.not_mem_nil, countStarts, List.filter_nil,
      List.length_nil, false_iff]
    omega
  | (b, r) :: tl, k, a, ha => by
    by_cases hb : b
    · subst hb
      simp only [attach, if_true, List.map_cons, List.mem_cons, countStarts_cons_true]
      by_cases hak : a = k + 1
      · subst hak
        simp only [true_or, true_iff]
        omega
      · have hlt : k + 1 < a := by omega
        rw [mem_ids_attach tl (k + 1) a hlt]
        constructor
        · rintro (h | h)
          · exact absurd h hak
          · omega
        · intro h
          right
          omega
    · simp only [Bool.not_eq_true] at hb
      subst hb
      simp only [attach, Bool.false_eq_true, if_false, List.map_cons, List.mem_cons,
        countStarts_cons_false]
      rw [mem_ids_attach tl k a ha]
      constructor
      · rintro (h | h)
        · omega
        · exact h
      · intro h
        right
        exact h

theorem ids_chain' : ∀ (xs : List (Bool × BRow)) (k : ℕ),
    List.Chain' (· ≤ ·) ((attach k xs).map (fun p => p.2))
  | [], _ => by simp [attach]
  | (b, r) :: tl, k => by
    simp only [attach, List.map_cons]
    rw [List.chain'_cons']
    constructor
    · intro h hh
      exact ids_ge_mem tl _ h (List.mem_of_mem_head? hh)
    · exact ids_chain' tl (if b then k + 1 else k)

theorem ids_filter_dedup_eq_range (xs : List (Bool × BRow)) :
    ((((attach 0 xs).map (fun p => p.2)).filter (fun a => decide (0 < a))).dedup) =
      List.range' 1 (countStarts xs) := by
  have hnodup1 : (((attach 0 xs).map (fun p => p.2)).filter
      (fun a => decide (0 < a))).dedup.Nodup := List.nodup_dedup _
  have hnodup2 : (List.range' 1 (countStarts xs)).Nodup := List.nodup_range' 1 _
  have hmem : ∀ a, a ∈ (((attach 0 xs).map (fun p => p.2)).filter
      (fun a => decide (0 < a))).dedup ↔ a ∈ List.range' 1 (countStarts xs) := by
    intro a
    rw [List.mem_dedup, List.mem_filter, List.mem_range'_1]
    constructor
    · rintro ⟨hin, hpos⟩
      have hpos2 : 0 < a := by simpa using hpos
      have := (mem_ids_attach xs 0 a hpos2).mp hin
      omega
    · rintro ⟨h1, h2⟩
      have hpos2 : 0 < a := by omega
      refine ⟨(mem_ids_attach xs 0 a hpos2).mpr (by omega), by simpa using hpos2⟩
  have hperm := (List.perm_ext_iff_of_nodup hnodup1 hnodup2).mpr hmem
  have hsorted1 : List.Sorted (· ≤ ·)
      ((((attach 0 xs).map (fun p => p.2)).filter (fun a => decide (0 < a))).dedup) := by
    have hpair : ((attach 0 xs).map (fun p => p.2)).Pairwise (· ≤ ·) :=
      List.chain'_iff_pairwise.mp (ids_chain' xs 0)
    exact List.Pairwise.sublist (List.dedup_sublist _) (hpair.filter _)
  have hsorted2 : List.Sorted (· ≤ ·) (List.range' 1 (countStarts xs)) :=
    (List.pairwise_lt_range' 1 (countStarts xs)).imp le_of_lt
  exact List.eq_of_perm_of_sorted hperm hsorted1 hsorted2

/-- The source's `groupby`-based trade log equals the run-segmentation
description. -/
theorem trade_log_eq_segs (bars : List Bar) (sars : List ℚ) (cap fee : ℚ) :
    trade_log bars sars cap fee = trade_log_runs bars sars cap fee := by
  have htag : tagged bars sars cap fee = attach 0 (flagged bars sars cap fee) := by
    rw [tagged, trade_id, flagged]
    exact attach_eq_zip (trade_start bars sars) (brows bars sars cap fee) 0
  have hgroup : ∀ j : ℕ,
      ((((attach 0 (flagged bars sars cap fee)).filter
          (fun rc => decide (0 < rc.2))).filter
            (fun rc => decide (rc.2 = 1 + j))).map (fun rc => rc.1)) =
        (segsFrom (flagged bars sars cap fee)).getD j [] := by
    intro j
    rw [List.filter_filter]
    have hcongr : ((attach 0 (flagged bars sars cap fee)).filter
        (fun a => decide (a.2 = 1 + j) && decide (0 < a.2))) =
        ((attach 0 (flagged bars sars cap fee)).filter
          (fun a => decide (a.2 = 0 + 1 + j))) := by
      apply List.filter_congr
      intro a _
      by_cases h : a.2 = 1 + j
      · have h2 : a.2 = 0 + 1 + j := by omega
        have h3 : 0 < a.2 := by omega
        simp [h, h2, h3]
      · have h2 : ¬ a.2 = 0 + 1 + j := by omega
        simp [h, h2]
    rw [hcongr]
    exact groups_eq_segs (flagged bars sars cap fee) 0 j
  have hkeys : ((attach 0 (flagged bars sars cap fee)).filter
      (fun rc => decide (0 < rc.2))).map (fun rc => rc.2) =
      ((attach 0 (flagged bars sars cap fee)).map (fun p => p.2)).filter
        (fun a => decide (0 < a)) := by
    rw [List.filter_map]
    rfl
  simp only [trade_log, trade_log_runs]
  rw [htag, hkeys, ids_filter_dedup_eq_range]
  apply List.ext_getElem
  · rw [List.length_map, List.length_map, List.length_range', segsFrom_length]
  · intro i h1 h2
    simp only [List.getElem_map, List.getElem_range']
    have hkey : 1 + 1 * i = 1 + i := by omega
    rw [hkey, hgroup i]
    congr 1
    apply List.getD_eq_getElem

/-! ### Per-row facts: flat rows earn nothing, start rows are non-flat -/

theorem mem_zip_getElem (l1 : List α) (l2 : List β) (b : α) (r : β)
    (h : (b, r) ∈ l1.zip l2) :
    ∃ i, ∃ h1 : i < l1.length, ∃ h2 : i < l2.length,
      l1.get ⟨i, h1⟩ = b ∧ l2.get ⟨i, h2⟩ = r := by
  obtain ⟨i, hi, hget⟩ := List.mem_iff_getElem.mp h
  have h1 : i < l1.length := by
    simp only [List.length_zip] at hi
    omega
  have h2 : i < l2.length := by
    simp only [List.length_zip] at hi
    omega
  rw [List.getElem_zip] at hget
  exact ⟨i, h1, h2, congrArg (fun p => p.1) hget, congrArg (fun p => p.2) hget⟩

theorem zip_getD (l1 : List α) (l2 : List β) (i : ℕ) (hi : i < (l1.zip l2).length)
    (d1 : α) (d2 : β) :
    (l1.zip l2).getD i (d1, d2) = (l1.getD i d1, l2.getD i d2) := by
  have h1 : i < l1.length := by
    simp only [List.length_zip] at hi
    omega
  have h2 : i < l2.length := by
    simp only [List.length_zip] at hi
    omega
  rw [List.getD_eq_getElem _ _ hi, List.getD_eq_getElem _ _ h1,
    List.getD_eq_getElem _ _ h2, List.getElem_zip]

theorem brows_getD (bars : List Bar) (sars : List ℚ) (cap fee : ℚ) (i : ℕ)
    (hi : i < (brows bars sars cap fee).length) :
    (brows bars sars cap fee).getD i default =
      ⟨(bars.getD i default).dt, (bars.getD i default).close,
        (position bars sars).getD i 9, (net_pnl bars sars cap fee).getD i 0⟩ := by
  have hzip : i < (bars.zip (position bars sars)).length := by
    simp only [List.length_zip, brows_length, position_length] at hi ⊢
    omega
  simp only [brows] at hi ⊢
  rw [zipWith_getD _ _ _ _ hi (default, 9) 0, zip_getD _ _ _ hzip default 9]

theorem trade_start_getD (bars : List Bar) (sars : List ℚ) (i : ℕ)
    (hi : i < (trade_start bars sars).length) :
    (trade_start bars sars).getD i false =
      (decide ((position bars sars).getD i 9 ≠
          (if i = 0 then 0 else (position bars sars).getD (i - 1) 9)) &&
       decide ((position bars sars).getD i 9 ≠ (0 : ℤ))) := by
  have hprev : i < (prev_position bars sars).length := by
    simp only [prev_position, shiftFill_length]
    simpa [trade_start_length, position_length] using hi
  simp only [trade_start] at hi ⊢
  rw [zipWith_getD _ _ _ _ hi 9 9]
  simp only [prev_position] at hprev ⊢
  have harg : (shiftFill (0 : ℤ) (position bars sars)).getD i 9 =
      (if i = 0 then 0 else (position bars sars).getD (i - 1) 9) :=
    shiftFill_getD _ _ _ _ hprev
  simp only [harg]

theorem trade_return_flat (bars : List Bar) (sars : List ℚ) (i : ℕ)
    (hi : i < (trade_return bars sars).length)
    (hflat : (position bars sars).getD i 9 = 0) :
    (trade_return bars sars).getD i 0 = 0 := by
  simp only [trade_return] at hi ⊢
  rw [zipWith_getD _ _ _ _ hi 9 (0, none), hflat]
  simp

theorem net_pnl_flat (bars : List Bar) (sars : List ℚ) (cap fee : ℚ) (i : ℕ)
    (hi : i < (net_pnl bars sars cap fee).length)
    (hflat : (position bars sars).getD i 9 = 0) :
    (net_pnl bars sars cap fee).getD i 0 = 0 := by
  have hn := net_pnl_length bars sars cap fee
  have hr : i < (trade_return bars sars).length := by rw [trade_return_length]; omega
  have hpl : i < (trade_pnl bars sars cap).length := by rw [trade_pnl_length]; omega
  have hc : i < (trade_cost bars sars fee).length := by rw [trade_cost_length]; omega
  simp only [net_pnl] at hi ⊢
  rw [zipWith_getD _ _ _ _ hi 0 0]
  have htp : (trade_pnl bars sars cap).getD i 0 = 0 := by
    rw [List.getD_eq_getElem _ _ hpl]
    simp only [trade_pnl, List.getElem_map]
    rw [← List.getD_eq_getElem _ _ hr, trade_return_flat bars sars i hr hflat]
    simp
  have htc : (trade_cost bars sars fee).getD i 0 = 0 := by
    rw [trade_cost_getD _ _ _ _ hc, hflat]
    simp
  rw [htp, htc]
  simp

theorem brows_flat_pnl (bars : List Bar) (sars : List ℚ) (cap fee : ℚ) (r : BRow)
    (hr : r ∈ brows bars sars cap fee) (hflat : r.pos = 0) : r.pnl = 0 := by
  obtain ⟨i, hi, hget⟩ := List.mem_iff_getElem.mp hr
  have hgd : (brows bars sars cap fee).getD i default = r := by
    rw [List.getD_eq_getElem _ _ hi]
    exact hget
  rw [brows_getD bars sars cap fee i hi] at hgd
  have hpos : (position bars sars).getD i 9 = r.pos := congrArg BRow.pos hgd
  have hpnl : (net_pnl bars sars cap fee).getD i 0 = r.pnl := congrArg BRow.pnl hgd
  have hnl : i < (net_pnl bars sars cap fee).length := by
    rw [net_pnl_length]
    simpa [brows_length] using hi
  rw [← hpnl]
  exact net_pnl_flat bars sars cap fee i hnl (by rw [hpos, hflat])

theorem mem_span_snd (xs : List (Bool × BRow)) (p : Bool × BRow)
    (h : p ∈ (spanNonStart xs).2) : p ∈ xs := by
  rw [← spanNonStart_decomp xs]
  exact List.mem_append_right _ h

theorem segs_head_start : ∀ (xs : List (Bool × BRow)) (g : List BRow),
    g ∈ segsFrom xs → ∃ r a2, g = r :: a2 ∧ ((true : Bool), r) ∈ xs
  | [], g, h => by simp [segsFrom] at h
  | (b, r) :: tl, g, h => by
    by_cases hb : b
    · subst hb
      rw [segsFrom_cons_true] at h
      rcases List.mem_cons.mp h with hc | hc
      · exact ⟨r, (spanNonStart tl).1, hc, by simp⟩
      · obtain ⟨r2, a2, hg, hmem⟩ := segs_head_start (spanNonStart tl).2 g hc
        exact ⟨r2, a2, hg, List.mem_cons_of_mem _ (mem_span_snd tl _ hmem)⟩
    · simp only [Bool.not_eq_true] at hb
      subst hb
      rw [segsFrom_cons_false] at h
      obtain ⟨r2, a2, hg, hmem⟩ := segs_head_start tl g h
      exact ⟨r2, a2, hg, List.mem_cons_of_mem _ hmem⟩
termination_by xs => xs.length
decreasing_by
  · simpa using Nat.lt_succ_of_le (spanNonStart_snd_length tl)
  · simp

theorem flagged_true_pos (bars : List Bar) (sars : List ℚ) (cap fee : ℚ) (r : BRow)
    (h : ((true : Bool), r) ∈ flagged bars sars cap fee) : r.pos ≠ 0 := by
  obtain ⟨i, h1, h2, hs, hr⟩ := mem_zip_getElem _ _ _ _ h
  have hsd : (trade_start bars sars).getD i false = true := by
    rw [List.getD_eq_getElem _ _ h1]
    simpa using hs
  rw [trade_start_getD bars sars i h1] at hsd
  have hpos9 : (position bars sars).getD i 9 ≠ 0 := by
    rcases Bool.and_eq_true_iff.mp hsd with ⟨_, hb2⟩
    exact of_decide_eq_true hb2
  have hrpos : r.pos = (position bars sars).getD i 9 := by
    have hgd : (brows bars sars cap fee).getD i default = r := by
      rw [List.getD_eq_getElem _ _ h2]
      simpa using hr
    rw [brows_getD bars sars cap fee i h2] at hgd
    exact (congrArg BRow.pos hgd).symm
  rw [hrpos]
  exact hpos9

theorem segsFrom_flatten : ∀ (xs : List (Bool × BRow)),
    (segsFrom xs).flatten = (xs.dropWhile (fun q => !q.1)).map (fun q => q.2)
  | [] => by simp [segsFrom]
  | (b, r) :: tl => by
    by_cases hb : b
    · subst hb
      rw [segsFrom_cons_true]
      simp only [List.flatten_cons, List.dropWhile_cons]
      simp only [Bool.not_true, Bool.false_eq_true, if_false, List.map_cons]
      rw [segsFrom_flatten (spanNonStart tl).2]
      have hmap : tl.map (fun q => q.2) =
          (spanNonStart tl).1 ++ ((spanNonStart tl).2.map (fun q => q.2)) := by
        conv_lhs => rw [← spanNonStart_decomp tl]
        rw [List.map_append, List.map_map]
        have hcomp : ((fun q : Bool × BRow => q.2) ∘ fun r2 => ((false : Bool), r2)) =
            fun r2 : BRow => r2 := rfl
        rw [hcomp]
        simp
      have hdrop : (spanNonStart tl).2.dropWhile (fun q => !q.1) =
          (spanNonStart tl).2 := by
        rcases spanNonStart_snd_shape tl with hsh | ⟨r2, tl2, hsh⟩
        · rw [hsh]
          rfl
        · rw [hsh]
          simp [List.dropWhile_cons]
      rw [hdrop, hmap]
      simp
    · simp only [Bool.not_eq_true] at hb
      subst hb
      rw [segsFrom_cons_false]
      simp only [List.dropWhile_cons, Bool.not_false, if_true]
      exact segsFrom_flatten tl
termination_by xs => xs.length
decreasing_by
  · simpa using Nat.lt_succ_of_le (spanNonStart_snd_length tl)
  · simp

/-! ### The rows before the first trade start are flat -/

/-- Invariant tying each row's start flag to its position and the previous
row's position (`p` is the position of the row before the list). -/
def StartInv : ℤ → List (Bool × BRow) → Prop
  | _, [] => True
  | p, (b, r) :: tl =>
    b = (decide (r.pos ≠ p) && decide (r.pos ≠ (0 : ℤ))) ∧
    (r.pos = 0 → r.pnl = 0) ∧ StartInv r.pos tl

theorem startInv_zip : ∀ (rs : List BRow) (p : ℤ),
    (∀ r ∈ rs, r.pos = 0 → r.pnl = 0) →
    StartInv p ((List.zipWith (fun a pp => decide (a ≠ pp) && decide (a ≠ (0 : ℤ)))
      (rs.map (fun r => r.pos)) (p :: (rs.map (fun r => r.pos)).dropLast)).zip rs)
  | [], p, _ => by simp [StartInv]
  | r :: rt, p, hpnl => by
    cases hrt : rt with
    | nil =>
      subst hrt
      simp only [List.map_cons, List.map_nil, List.dropLast_single,
        List.zipWith_cons_cons, List.zipWith_nil_right, List.zip_cons_cons,
        List.zip_nil_right]
      exact ⟨rfl, hpnl r (by simp), trivial⟩
    | cons r2 rt2 =>
      subst hrt
      have hstep := startInv_zip (r2 :: rt2) r.pos
        (fun x hx hx0 => hpnl x (List.mem_cons_of_mem r hx) hx0)
      simp only [List.map_cons] at hstep ⊢
      rw [List.dropLast_cons_of_ne_nil (by simp)]
      simp only [List.zipWith_cons_cons, List.zip_cons_cons]
      exact ⟨rfl, hpnl r (by simp), hstep⟩
termination_by rs => rs.length

theorem zipWith_zip_map_pos : ∀ (l1 : List Bar) (l2 : List ℤ) (l3 : List ℚ),
    l2.length ≤ l1.length → l2.length ≤ l3.length →
    ((List.zipWith (fun bp q => (⟨bp.1.dt, bp.1.close, bp.2, q⟩ : BRow))
      (l1.zip l2) l3).map (fun r => r.pos)) = l2
  | _, [], _, _, _ => by simp
  | [], p :: t2, _, h1, _ => by simp at h1
  | b :: t1, p :: t2, [], _, h2 => by simp at h2
  | b :: t1, p :: t2, q :: t3, h1, h2 => by
    simp only [List.zip_cons_cons, List.zipWith_cons_cons, List.map_cons]
    rw [zipWith_zip_map_pos t1 t2 t3 (by simpa using h1) (by simpa using h2)]

theorem zipWith_zip_map_pnl : ∀ (l1 : List Bar) (l2 : List ℤ) (l3 : List ℚ),
    l3.length ≤ l1.length → l3.length ≤ l2.length →
    ((List.zipWith (fun bp q => (⟨bp.1.dt, bp.1.close, bp.2, q⟩ : BRow))
      (l1.zip l2) l3).map (fun r => r.pnl)) = l3
  | _, _, [], _, _ => by simp
  | [], _, q :: t3, h1, _ => by simp at h1
  | b :: t1, [], q :: t3, _, h2 => by simp at h2
  | b :: t1, p :: t2, q :: t3, h1, h2 => by
    simp only [List.zip_cons_cons, List.zipWith_cons_cons, List.map_cons]
    rw [zipWith_zip_map_pnl t1 t2 t3 (by simpa using h1) (by simpa using h2)]

theorem brows_map_pos (bars : List Bar) (sars : List ℚ) (cap fee : ℚ) :
    (brows bars sars cap fee).map (fun r => r.pos) = position bars sars := by
  apply zipWith_zip_map_pos
  · rw [position_length]
    omega
  · rw [position_length, net_pnl_length]

theorem brows_map_pnl (bars : List Bar) (sars : List ℚ) (cap fee : ℚ) :
    (brows bars sars cap fee).map (fun r => r.pnl) = net_pnl bars sars cap fee := by
  apply zipWith_zip_map_pnl
  · rw [net_pnl_length]
    omega
  · rw [net_pnl_length, position_length]

theorem flagged_map_snd (bars : List Bar) (sars : List ℚ) (cap fee : ℚ) :
    (flagged bars sars cap fee).map (fun q => q.2) = brows bars sars cap fee := by
  apply List.map_snd_zip
  rw [trade_start_length, brows_length]

theorem startInv_flagged (bars : List Bar) (sars : List ℚ) (cap fee : ℚ) :
    StartInv 0 (flagged bars sars cap fee) := by
  cases hbe : brows bars sars cap fee with
  | nil =>
    have hpos : position bars sars = [] := by
      rw [← brows_map_pos bars sars cap fee, hbe]
      rfl
    have : flagged bars sars cap fee = [] := by
      rw [flagged, hbe, List.zip_nil_right]
    rw [this]
    trivial
  | cons r0 rt0 =>
    have hpnl : ∀ r ∈ brows bars sars cap fee, r.pos = 0 → r.pnl = 0 :=
      fun r hr => brows_flat_pnl bars sars cap fee r hr
    have hshift : shiftFill (0 : ℤ) (position bars sars) =
        0 :: (position bars sars).dropLast := by
      have : position bars sars ≠ [] := by
        intro h
        rw [← brows_map_pos bars sars cap fee, hbe] at h
        simp at h
      cases hp : position bars sars with
      | nil => exact absurd hp this
      | cons x xt => rfl
    have hflag : flagged bars sars cap fee =
        (List.zipWith (fun a pp => decide (a ≠ pp) && decide (a ≠ (0 : ℤ)))
          ((brows bars sars cap fee).map (fun r => r.pos))
          (0 :: ((brows bars sars cap fee).map (fun r => r.pos)).dropLast)).zip
          (brows bars sars cap fee) := by
      rw [flagged, trade_start, prev_position, hshift, brows_map_pos]
    rw [hflag]
    exact startInv_zip (brows bars sars cap fee) 0 hpnl

theorem takeWhile_pnl_zero : ∀ (xs : List (Bool × BRow)), StartInv 0 xs →
    ((xs.takeWhile (fun q => !q.1)).map (fun q => q.2.pnl)).sum = 0
  | [], _ => by simp
  | (b, r) :: tl, hinv => by
    obtain ⟨hb, hpnl, htail⟩ := hinv
    by_cases hbv : b
    · subst hbv
      simp [List.takeWhile_cons]
    · simp only [Bool.not_eq_true] at hbv
      subst hbv
      have hflat : r.pos = 0 := by
        by_contra hne
        have : decide (r.pos ≠ (0 : ℤ)) = true := decide_eq_true hne
        rw [this] at hb
        simp at hb
      have htail0 : StartInv 0 tl := by
        rw [← hflat]
        exact htail
      have hrec := takeWhile_pnl_zero tl htail0
      have hstep : ((((false, r) :: tl).takeWhile (fun q => !q.1)).map
          (fun q => q.2.pnl)).sum =
          r.pnl + ((tl.takeWhile (fun q => !q.1)).map (fun q => q.2.pnl)).sum := by
        simp [List.takeWhile_cons]
      rw [hstep, hpnl hflat, hrec]
      simp

theorem cumsumFrom_getLastD (a : ℚ) (xs : List ℚ) :
    (cumsumFrom a xs).getLastD a = a + xs.sum := by
  induction xs generalizing a with
  | nil => simp [cumsumFrom]
  | cons x tl ih =>
    simp only [cumsumFrom, List.getLastD_cons, List.sum_cons]
    rw [ih (a + x)]
    ring

theorem equity_getLastD (bars : List Bar) (sars : List ℚ) (cap fee : ℚ)
    (hne : net_pnl bars sars cap fee ≠ []) :
    (equity bars sars cap fee).getLastD cap = cap + (net_pnl bars sars cap fee).sum := by
  simp only [equity, cumsum]
  rw [List.getLastD_eq_getLast?, List.getLast?_map]
  have h0 := cumsumFrom_getLastD 0 (net_pnl bars sars cap fee)
  rw [List.getLastD_eq_getLast?] at h0
  cases hl : (cumsumFrom 0 (net_pnl bars sars cap fee)).getLast? with
  | none =>
    rw [List.getLast?_eq_none_iff] at hl
    have : net_pnl bars sars cap fee = [] := by
      have := cumsumFrom_length 0 (net_pnl bars sars cap fee)
      rw [hl] at this
      cases hn : net_pnl bars sars cap fee with
      | nil => rfl
      | cons y yt => rw [hn] at this; simp at this
    exact absurd this hne
  | some v =>
    rw [hl] at h0
    simp only [Option.getD_some] at h0
    simp [h0]

/-! ### Claims C1 and C2 -/

/-- Claim C1, corrected: the trade log is exactly the segment view — one
`Trade` per maximal run of identical non-zero position in chronological
order, each segment starting at the run's first bar (non-flat, supplying
entry_time/entry_price/direction) and extending up to the bar before the
next run starts; every bar of a segment beyond its run is flat and
contributes zero net P&L, so `pnl` equals the run's P&L, but the
exit_time/exit_price are taken from the segment's last bar, which can be a
later flat bar (see the counterexample). -/
theorem C1_trade_log_segments (bars : List Bar) (sars : List ℚ) (cap fee : ℚ) :
    trade_log bars sars cap fee = trade_log_runs bars sars cap fee ∧
    (∀ g ∈ segsFrom (flagged bars sars cap fee), ∃ r a2, g = r :: a2 ∧ r.pos ≠ 0) ∧
    (∀ g ∈ segsFrom (flagged bars sars cap fee), ∀ r ∈ g, r.pos = 0 → r.pnl = 0) := by
  refine ⟨trade_log_eq_segs bars sars cap fee, ?_, ?_⟩
  · intro g hg
    obtain ⟨r, a2, hgr, hmem⟩ := segs_head_start _ g hg
    exact ⟨r, a2, hgr, flagged_true_pos bars sars cap fee r hmem⟩
  · intro g hg r hr hflat
    have hrj : r ∈ (segsFrom (flagged bars sars cap fee)).flatten :=
      List.mem_flatten.mpr ⟨g, hg, hr⟩
    rw [segsFrom_flatten] at hrj
    obtain ⟨q, hq, hqr⟩ := List.mem_map.mp hrj
    have hqf : q ∈ flagged bars sars cap fee := by
      rw [← List.takeWhile_append_dropWhile (fun q2 : Bool × BRow => !q2.1)
        (flagged bars sars cap fee)]
      exact List.mem_append_right _ hq
    have hrb : r ∈ brows bars sars cap fee := by
      rw [← flagged_map_snd bars sars cap fee]
      exact List.mem_map.mpr ⟨q, hqf, hqr⟩
    exact brows_flat_pnl bars sars cap fee r hrb hflat

/-- Counterexample to C1 as stated: the single trade's non-flat run is bar
1 only (timestamp 24, close 100; bar 2 is flat because close = sar), yet
the emitted exit_time/exit_price are 48/50, taken from the later flat
bar. -/
theorem C1_trade_log_counterexample :
    position [⟨0, 0, 0, 100⟩, ⟨24, 0, 0, 100⟩, ⟨48, 0, 0, 50⟩] [50, 100, 100] =
      [0, 1, 0] ∧
    trade_log [⟨0, 0, 0, 100⟩, ⟨24, 0, 0, 100⟩, ⟨48, 0, 0, 50⟩] [50, 100, 100]
        100000 100 =
      [{ entry_time := 24, entry_price := 100, exit_time := 48, exit_price := 50,
         direction := 1, pnl := -100 }] := by
  constructor
  · decide
  · decide

/-- Claim C2: the trade log's total P&L accounts for all net P&L (bars
outside any trade group are flat and earn exactly 0), and the total net
P&L is exactly the final equity minus the initial capital. -/
theorem C2_pnl_reconciliation (bars : List Bar) (sars : List ℚ) (cap fee : ℚ)
    (hb : bars ≠ []) (hs : sars ≠ []) :
    ((trade_log bars sars cap fee).map Trade.pnl).sum =
      (net_pnl bars sars cap fee).sum ∧
    (net_pnl bars sars cap fee).sum =
      (equity bars sars cap fee).getLastD cap - cap ∧
    (∀ r ∈ brows bars sars cap fee, r.pos = 0 → r.pnl = 0) := by
  have hnne : net_pnl bars sars cap fee ≠ [] := by
    apply List.ne_nil_of_length_pos
    rw [net_pnl_length]
    cases bars with
    | nil => exact absurd rfl hb
    | cons b bs =>
      cases sars with
      | nil => exact absurd rfl hs
      | cons s ss => simp
  refine ⟨?_, ?_, fun r hr => brows_flat_pnl bars sars cap fee r hr⟩
  · rw [trade_log_eq_segs bars sars cap fee]
    have h1 : (trade_log_runs bars sars cap fee).map Trade.pnl =
        (segsFrom (flagged bars sars cap fee)).map (fun g => (g.map BRow.pnl).sum) := by
      rw [trade_log_runs, List.map_map]
      rfl
    have h2 : ((segsFrom (flagged bars sars cap fee)).map
        (fun g => (g.map BRow.pnl).sum)).sum =
        (((segsFrom (flagged bars sars cap fee)).flatten).map BRow.pnl).sum := by
      rw [List.map_flatten, List.sum_flatten, List.map_map]
      rfl
    rw [h1, h2, segsFrom_flatten, List.map_map]
    have hfun : (BRow.pnl ∘ fun q : Bool × BRow => q.2) =
        fun q : Bool × BRow => q.2.pnl := rfl
    rw [hfun]
    have hflagsum : ((flagged bars sars cap fee).map
        (fun q : Bool × BRow => q.2.pnl)).sum = (net_pnl bars sars cap fee).sum := by
      have h := congrArg (fun l : List BRow => (l.map (fun r => r.pnl)).sum)
        (flagged_map_snd bars sars cap fee)
      simp only at h
      rw [List.map_map] at h
      have hfun2 : ((fun r : BRow => r.pnl) ∘ (fun q : Bool × BRow => q.2)) =
          fun q : Bool × BRow => q.2.pnl := rfl
      rw [hfun2] at h
      rw [h, brows_map_pnl]
    have hsplit : ((flagged bars sars cap fee).map
        (fun q : Bool × BRow => q.2.pnl)).sum =
        (((flagged bars sars cap fee).takeWhile (fun q => !q.1)).map
          (fun q : Bool × BRow => q.2.pnl)).sum +
        (((flagged bars sars cap fee).dropWhile (fun q => !q.1)).map
          (fun q : Bool × BRow => q.2.pnl)).sum := by
      conv_lhs => rw [← List.takeWhile_append_dropWhile (fun q : Bool × BRow => !q.1)
        (flagged bars sars cap fee)]
      rw [List.map_append, List.sum_append]
    have htake : (((flagged bars sars cap fee).takeWhile (fun q => !q.1)).map
        (fun q : Bool × BRow => q.2.pnl)).sum = 0 :=
      takeWhile_pnl_zero _ (startInv_flagged bars sars cap fee)
    rw [← hflagsum, hsplit, htake, zero_add]
  · rw [equity_getLastD bars sars cap fee hnne]
    ring

/-- Witness for C2 at a concrete two-bar input with one trade. -/
theorem C2_pnl_reconciliation_witness :
    (([⟨0, 0, 0, 100⟩, ⟨24, 0, 0, 101⟩] : List Bar) ≠ [] ∧
      ([(0 : ℚ), 0] : List ℚ) ≠ []) ∧
    (((trade_log [⟨0, 0, 0, 100⟩, ⟨24, 0, 0, 101⟩] [0, 0] 100000 100).map Trade.pnl).sum =
      (net_pnl [⟨0, 0, 0, 100⟩, ⟨24, 0, 0, 101⟩] [0, 0] 100000 100).sum ∧
    (net_pnl [⟨0, 0, 0, 100⟩, ⟨24, 0, 0, 101⟩] [0, 0] 100000 100).sum =
      (equity [⟨0, 0, 0, 100⟩, ⟨24, 0, 0, 101⟩] [0, 0] 100000 100).getLastD 100000 -
        100000 ∧
    (∀ r ∈ brows [⟨0, 0, 0, 100⟩, ⟨24, 0, 0, 101⟩] [0, 0] 100000 100,
      r.pos = 0 → r.pnl = 0)) :=
  ⟨⟨by decide, by decide⟩,
    C2_pnl_reconciliation [⟨0, 0, 0, 100⟩, ⟨24, 0, 0, 101⟩] [0, 0] 100000 100
      (by decide) (by decide)⟩

end SarBacktest

